import Mathlib

/-!
# GpyX point-sequence core: a shallow embedding

A verification development of the GPS point-sequence data model and its
simplification engine (`src/models.py` of the GpyX repository): `GpsPoint`,
`GpsPointArray` and the operations `reverse`, `remove_duplicates`, `bounds`,
`decimate`, `douglas_peucker` and `simplify_for_routing`.

Modelling conventions:
* Python `float` coordinates are modelled as rationals `ℚ`; comparisons and
  arithmetic are exact (IEEE rounding is outside the scope of this model).
* The two transcendental library calls of the source,
  `math.cos(math.radians ·)` and `math.sqrt`, have no computable rational
  counterpart; they enter the embedding as explicit function parameters
  `cosd` and `sqrtQ`.  Every numbered theorem below quantifies over them, so
  each result holds in particular for the real cosine and square root.
* Python exceptions are modelled by `Option` results (`none` = the call
  raises); everything else is total and pure.  Methods mutating `self`
  become functions `GpsPointArray → ... → GpsPointArray`.
-/

/-- The `ArrayType` enum of the source. -/
inductive ArrayType where
  | route
  | track
  | waypoint
  | poi
deriving DecidableEq, Repr

/-- `GpsPoint`: a single GPS point with coordinates and metadata. -/
structure GpsPoint where
  lat : ℚ := 0
  lng : ℚ := 0
  alt : ℚ := 0
  name : String := ""
  comment : String := ""
deriving DecidableEq, Repr

instance : Inhabited GpsPoint := ⟨{}⟩

/-- `GpsPoint.__bool__`: a point is valid iff its latitude or longitude is
nonzero (the literal origin `(0,0)` means "empty/unset"). -/
def GpsPoint.isValid (p : GpsPoint) : Bool :=
  decide (p.lat ≠ 0 ∨ p.lng ≠ 0)

/-- `GpsPoint.copy`: field-by-field copy. -/
def GpsPoint.copy (p : GpsPoint) : GpsPoint :=
  { lat := p.lat, lng := p.lng, alt := p.alt, name := p.name, comment := p.comment }

/-- `GpsPointArray`: an ordered collection of GPS points with a display name
and a category tag (the `_points`, `_name`, `_type` attributes). -/
structure GpsPointArray where
  points : List GpsPoint
  name : String := ""
  array_type : ArrayType := ArrayType.route
deriving DecidableEq, Repr

/-- `GpsPointArray.reverse`. -/
def GpsPointArray.reverse (arr : GpsPointArray) : GpsPointArray :=
  { arr with points := arr.points.reverse }

/-- The loop of `GpsPointArray.remove_duplicates`: `seen` holds the
`(latitude, longitude)` keys already encountered (the Python `set`,
modelled as a list used only through membership). -/
def removeDupAux : List GpsPoint → List (ℚ × ℚ) → List GpsPoint
  | [], _ => []
  | p :: ps, seen =>
    if (p.lat, p.lng) ∈ seen then removeDupAux ps seen
    else p :: removeDupAux ps ((p.lat, p.lng) :: seen)

/-- `GpsPointArray.remove_duplicates`: keep the first occurrence of each
distinct `(latitude, longitude)` pair. -/
def GpsPointArray.remove_duplicates (arr : GpsPointArray) : GpsPointArray :=
  { arr with points := removeDupAux arr.points [] }

/-- `GpsPointArray.bounds`.  Python's `min`/`max` raise `ValueError` on an
empty list; that outcome is the `none` result here (`List.min?`/`List.max?`
return `none` exactly on `[]`). -/
def GpsPointArray.bounds (arr : GpsPointArray) : Option (ℚ × ℚ × ℚ × ℚ) :=
  if arr.points = [] then some (0, 0, 0, 0)
  else
    let lats := (arr.points.filter fun p => p.isValid).map GpsPoint.lat
    let lngs := (arr.points.filter fun p => p.isValid).map GpsPoint.lng
    match lats.min?, lngs.min?, lats.max?, lngs.max? with
    | some a, some b, some c, some d => some (a, b, c, d)
    | _, _, _, _ => none

/-- `GpsPointArray.decimate`: keep only every Nth interior point (always
keeps first and last).  `keep_every_n` is a Python `int`, hence `ℤ`. -/
def GpsPointArray.decimate (arr : GpsPointArray) (keep_every_n : ℤ) : GpsPointArray :=
  if keep_every_n < 2 ∨ arr.points.length < 3 then arr
  else
    let ps := arr.points
    let mids := ((List.range' 1 (ps.length - 2)).filter fun i =>
      decide (Int.ofNat i % keep_every_n = 0)).map fun i => ps.getD i default
    { arr with points := (ps.getD 0 default :: mids) ++ [ps.getD (ps.length - 1) default] }

/-- `GpsPointArray._perpendicular_distance`: perpendicular distance from a
point to a line segment in a flat-earth plane scaled by the cosine of the
query point's latitude.  `cosd` stands for `math.cos ∘ math.radians` and
`sqrtQ` for `math.sqrt` (see the module docstring). -/
def perpendicular_distance (cosd sqrtQ : ℚ → ℚ) (pt line_start line_end : GpsPoint) : ℚ :=
  let cos_lat := cosd pt.lat
  let x0 := pt.lng * cos_lat
  let y0 := pt.lat
  let x1 := line_start.lng * cos_lat
  let y1 := line_start.lat
  let x2 := line_end.lng * cos_lat
  let y2 := line_end.lat
  let dx := x2 - x1
  let dy := y2 - y1
  let dd : ℚ × ℚ :=
    if dx = 0 ∧ dy = 0 then
      (x0 - x1, y0 - y1)
    else
      let t := max 0 (min 1 (((x0 - x1) * dx + (y0 - y1) * dy) / (dx * dx + dy * dy)))
      (x0 - (x1 + t * dx), y0 - (y1 + t * dy))
  sqrtQ ((dd.1 * 111320) ^ 2 + (dd.2 * 111320) ^ 2)

/-- Spec-side companion of claim C9: the point-to-point distance from the
query point to a single point, in the same latitude-scaled planar metric as
`perpendicular_distance`. -/
def point_to_point_distance (cosd sqrtQ : ℚ → ℚ) (pt q : GpsPoint) : ℚ :=
  let cos_lat := cosd pt.lat
  let x0 := pt.lng * cos_lat
  let y0 := pt.lat
  let x1 := q.lng * cos_lat
  let y1 := q.lat
  sqrtQ (((x0 - x1) * 111320) ^ 2 + ((y0 - y1) * 111320) ^ 2)

/-- The distance of interior index `i` of a range from the chord between the
range endpoints `s` and `e` (indices into `pts`). -/
def chordDist (pd : GpsPoint → GpsPoint → GpsPoint → ℚ) (pts : List GpsPoint)
    (s e i : ℕ) : ℚ :=
  pd (pts.getD i default) (pts.getD s default) (pts.getD e default)

/-- One step of the interior scan of `douglas_peucker`: the running pair
`(max_dist, max_idx)` is replaced by `(d, i)` when `d > max_dist`. -/
def scanStep (pd : GpsPoint → GpsPoint → GpsPoint → ℚ) (pts : List GpsPoint)
    (s e : ℕ) (acc : ℚ × ℕ) (i : ℕ) : ℚ × ℕ :=
  if acc.1 < chordDist pd pts s e i then (chordDist pd pts s e i, i) else acc

/-- The interior scan of `douglas_peucker` over a range `(s, e)`: starting
from `(0.0, start)`, fold `scanStep` over `i ∈ [s+1, e)` (the Python loop
`for i in range(start + 1, end)`). -/
def scanMax (pd : GpsPoint → GpsPoint → GpsPoint → ℚ) (pts : List GpsPoint)
    (s e : ℕ) : ℚ × ℕ :=
  (List.range' (s + 1) (e - (s + 1))).foldl (scanStep pd pts s e) (0, s)

/-- Fuel-indexed recursive range splitting: the set of interior indices that
the Douglas-Peucker recursion keeps inside the range `(s, e)`.  Any
`fuel ≥ e - s` is enough (see `dpRecKeep_fuel`). -/
def dpRecKeep (pd : GpsPoint → GpsPoint → GpsPoint → ℚ) (pts : List GpsPoint)
    (ε : ℚ) : ℕ → ℕ → ℕ → Finset ℕ
  | 0, _, _ => ∅
  | fuel + 1, s, e =>
    if e - s < 2 then ∅
    else
      let md := (scanMax pd pts s e).1
      let m := (scanMax pd pts s e).2
      if ε < md then
        insert m (dpRecKeep pd pts ε fuel s m ∪ dpRecKeep pd pts ε fuel m e)
      else ∅

/-- The canonical (fuel-saturated) recursive keep-set of a range. -/
def dpRKeep (pd : GpsPoint → GpsPoint → GpsPoint → ℚ) (pts : List GpsPoint)
    (ε : ℚ) (s e : ℕ) : Finset ℕ :=
  dpRecKeep pd pts ε (e - s) s e

/-- The measure justifying termination of the explicit work stack: ranges
weigh the square of their width, so splitting a range at an interior index
strictly shrinks the total. -/
def rangeWeight (r : ℕ × ℕ) : ℕ :=
  (r.2 - r.1) * (r.2 - r.1)

/-- The `while stack:` loop of `douglas_peucker`.  The top of the Python
stack (`stack.pop()` / `stack.append`) is the head of the list, so pushing
`(start, max_idx)` then `(max_idx, end)` yields `(m, e) :: (s, m) :: rest`.

The split guard carries the bounds `s < m ∧ m < e` needed for termination;
whenever `0 ≤ ε` these bounds follow from `ε < max_dist` (lemma
`scanMax_pos`), so under the caller's `epsilon_m > 0` guard the condition is
equivalent to the source's bare `max_dist > epsilon_m`. -/
def dpLoop (pd : GpsPoint → GpsPoint → GpsPoint → ℚ) (pts : List GpsPoint)
    (ε : ℚ) : List (ℕ × ℕ) → List Bool → List Bool
  | [], keep => keep
  | (s, e) :: rest, keep =>
    if e - s < 2 then dpLoop pd pts ε rest keep
    else
      match scanMax pd pts s e with
      | (md, m) =>
        if h : ε < md ∧ s < m ∧ m < e then
          dpLoop pd pts ε ((m, e) :: (s, m) :: rest) (keep.set m true)
        else dpLoop pd pts ε rest keep
termination_by stack _ => (stack.map rangeWeight).sum + stack.length
decreasing_by
  · simp only [List.map_cons, List.sum_cons, List.length_cons]
    omega
  · simp only [List.map_cons, List.sum_cons, List.length_cons, rangeWeight]
    obtain ⟨-, h1, h2⟩ := h
    have hms : m - s ≥ 1 := by omega
    have hem : e - m ≥ 1 := by omega
    have hsum : e - s = (m - s) + (e - m) := by omega
    have : (e - m) * (e - m) + (m - s) * (m - s) + 1 < (e - s) * (e - s) := by
      rw [hsum]; nlinarith [hms, hem]
    omega
  · simp only [List.map_cons, List.sum_cons, List.length_cons]
    omega

/-- `GpsPointArray.douglas_peucker`: iterative Douglas-Peucker
simplification with tolerance `epsilon_m` metres. -/
def GpsPointArray.douglas_peucker (arr : GpsPointArray) (cosd sqrtQ : ℚ → ℚ)
    (epsilon_m : ℚ) : GpsPointArray :=
  let n := arr.points.length
  if n < 3 ∨ epsilon_m ≤ 0 then arr
  else
    let pd := perpendicular_distance cosd sqrtQ
    let keep0 := ((List.replicate n false).set 0 true).set (n - 1) true
    let keep := dpLoop pd arr.points epsilon_m [(0, n - 1)] keep0
    { arr with
      points := (arr.points.enum.filter fun ip => keep.getD ip.1 false).map Prod.snd }

/-- The `for _ in range(30)` loop of `simplify_for_routing`, with the
remaining iteration count as fuel and the loop state `(lo, hi, best_pts)`
passed explicitly. -/
def sfrLoop (cosd sqrtQ : ℚ → ℚ) (orig : GpsPointArray) (target : ℤ) :
    ℕ → ℚ → ℚ → List GpsPoint → List GpsPoint
  | 0, _, _, best_pts => best_pts
  | k + 1, lo, hi, best_pts =>
    let mid := (lo + hi) / 2
    let test : GpsPointArray :=
      { points := orig.points.map GpsPoint.copy, name := orig.name,
        array_type := orig.array_type }
    let test := test.douglas_peucker cosd sqrtQ mid
    let count : ℤ := test.points.length
    let st : ℚ × ℚ × List GpsPoint :=
      if target < count then (mid, hi, best_pts) else (lo, mid, test.points)
    if |(count : ℚ) - (target : ℚ)| ≤ max 2 ((target : ℚ) * (5 / 100)) then
      test.points
    else sfrLoop cosd sqrtQ orig target k st.1 st.2.1 st.2.2

/-- `GpsPointArray.simplify_for_routing`: binary search over the
Douglas-Peucker tolerance, aiming at `target_points` output points. -/
def GpsPointArray.simplify_for_routing (arr : GpsPointArray) (cosd sqrtQ : ℚ → ℚ)
    (target_points : ℤ) : GpsPointArray :=
  if (arr.points.length : ℤ) ≤ target_points then arr
  else { arr with points := sfrLoop cosd sqrtQ arr target_points 30 1 50000 arr.points }

/-- Claim-side argmax of C1: the first (lowest) interior index of the range
`(s, e)` whose chord distance is maximal among all interior indices,
scanning low to high. -/
def specArgmaxFirst (pd : GpsPoint → GpsPoint → GpsPoint → ℚ) (pts : List GpsPoint)
    (s e : ℕ) : Option ℕ :=
  (List.range' (s + 1) (e - (s + 1))).find? fun i =>
    @decide (∀ j ∈ List.range' (s + 1) (e - (s + 1)),
      chordDist pd pts s e j ≤ chordDist pd pts s e i) (List.decidableBAll _ _)

/-- Claim-side range-splitting procedure of C1: for each processed range
`(s, e)` with `e - s ≥ 2`, the interior index of maximum chord distance
(ties to the first index) is kept iff that maximum exceeds `ε`, in which
case the two sub-ranges are processed as well. -/
def dpSpecRec (pd : GpsPoint → GpsPoint → GpsPoint → ℚ) (pts : List GpsPoint)
    (ε : ℚ) : ℕ → ℕ → ℕ → Finset ℕ
  | 0, _, _ => ∅
  | fuel + 1, s, e =>
    if e - s < 2 then ∅
    else
      match specArgmaxFirst pd pts s e with
      | none => ∅
      | some m =>
        if ε < chordDist pd pts s e m then
          insert m (dpSpecRec pd pts ε fuel s m ∪ dpSpecRec pd pts ε fuel m e)
        else ∅

/-- Claim-side kept-index set of C1 for a whole sequence of length `n`:
indices `0` and `n - 1`, plus whatever the range-splitting procedure keeps
inside `(0, n - 1)`. -/
def specKeepSet (pd : GpsPoint → GpsPoint → GpsPoint → ℚ) (pts : List GpsPoint)
    (ε : ℚ) : Finset ℕ :=
  insert 0 (insert (pts.length - 1)
    (dpSpecRec pd pts ε (pts.length - 1) 0 (pts.length - 1)))

/-- Claim-side description of C5: the sublist of the points at whose index
no earlier point carries the same `(latitude, longitude)` pair. -/
def firstOccurrences (ps : List GpsPoint) : List GpsPoint :=
  (ps.enum.filter fun ip =>
    @decide (∀ q ∈ ps.take ip.1, (q.lat, q.lng) ≠ (ip.2.lat, ip.2.lng))
      (List.decidableBAll _ _)).map Prod.snd

/-- Claim-side description of C7's binary search: run at most `fuel` trials;
a trial whose output count exceeds the target raises `lo`, any other trial
lowers `hi` and is recorded as the current best; a trial within
`max(2, 0.05 · target)` of the target is accepted immediately.  `acc` is
`none` while no trial has been accepted. -/
def sfrTrialSearch (cosd sqrtQ : ℚ → ℚ) (orig : GpsPointArray) (target : ℤ) :
    ℕ → ℚ → ℚ → Option (List GpsPoint) → Option (List GpsPoint)
  | 0, _, _, acc => acc
  | k + 1, lo, hi, acc =>
    let mid := (lo + hi) / 2
    let out := (orig.douglas_peucker cosd sqrtQ mid).points
    let cnt : ℤ := out.length
    if |(cnt : ℚ) - (target : ℚ)| ≤ max 2 ((target : ℚ) * (5 / 100)) then some out
    else if target < cnt then sfrTrialSearch cosd sqrtQ orig target k mid hi acc
    else sfrTrialSearch cosd sqrtQ orig target k lo mid (some out)

/-- A point at latitude `q`, longitude `1` (concrete witness data; the
longitude keeps every such point valid, and distinct latitudes keep the
coordinate pairs pairwise distinct). -/
def mkPt (q : ℚ) : GpsPoint :=
  { lat := q, lng := 1 }

/-- A concrete two-point sequence (witness data). -/
def arrTwo : GpsPointArray :=
  { points := [mkPt 0, mkPt 1], name := "two", array_type := ArrayType.track }

/-- A concrete twelve-point sequence, indices 0..11 (witness data). -/
def arrTwelve : GpsPointArray :=
  { points := [mkPt 0, mkPt 1, mkPt 2, mkPt 3, mkPt 4, mkPt 5, mkPt 6, mkPt 7,
               mkPt 8, mkPt 9, mkPt 10, mkPt 11],
    name := "twelve", array_type := ArrayType.route }

/-- A concrete five-point sequence (witness data). -/
def arrFive : GpsPointArray :=
  { points := [mkPt 0, mkPt 1, mkPt 2, mkPt 3, mkPt 4], name := "five",
    array_type := ArrayType.track }

/-- A nonempty sequence whose single point sits exactly at the origin, hence
is invalid under the `(0,0)`-is-empty convention (counterexample data). -/
def arrOriginOnly : GpsPointArray :=
  { points := [{ lat := 0, lng := 0 }], name := "origin", array_type := ArrayType.waypoint }

/-- The ascending list of indices below `n` belonging to a kept-index
set. -/
def keptList (S : Finset ℕ) (n : ℕ) : List ℕ :=
  (List.range n).filter fun i => decide (i ∈ S)

/-- The union of the recursive keep-sets of all ranges on a work stack. -/
def stackMarks (pd : GpsPoint → GpsPoint → GpsPoint → ℚ) (pts : List GpsPoint)
    (ε : ℚ) (stack : List (ℕ × ℕ)) : Finset ℕ :=
  stack.foldr (fun r acc => dpRKeep pd pts ε r.1 r.2 ∪ acc) ∅

/-- ───────────────────────── theorems ───────────────────────── -/

theorem GpsPoint.copy_eq (p : GpsPoint) : p.copy = p := rfl

theorem map_copy_eq (ps : List GpsPoint) : ps.map GpsPoint.copy = ps :=
  List.map_id'' GpsPoint.copy_eq ps

theorem douglas_peucker_name_type (arr : GpsPointArray) (cosd sqrtQ : ℚ → ℚ) (ε : ℚ) :
    (arr.douglas_peucker cosd sqrtQ ε).name = arr.name ∧
    (arr.douglas_peucker cosd sqrtQ ε).array_type = arr.array_type := by
  simp only [GpsPointArray.douglas_peucker]
  split <;> exact ⟨rfl, rfl⟩

theorem simplify_for_routing_name_type (arr : GpsPointArray) (cosd sqrtQ : ℚ → ℚ) (t : ℤ) :
    (arr.simplify_for_routing cosd sqrtQ t).name = arr.name ∧
    (arr.simplify_for_routing cosd sqrtQ t).array_type = arr.array_type := by
  simp only [GpsPointArray.simplify_for_routing]
  split <;> exact ⟨rfl, rfl⟩

theorem decimate_name_type (arr : GpsPointArray) (k : ℤ) :
    (arr.decimate k).name = arr.name ∧ (arr.decimate k).array_type = arr.array_type := by
  simp only [GpsPointArray.decimate]
  split <;> exact ⟨rfl, rfl⟩

/-- **C10.** Every point-list mutator — `reverse`, `remove_duplicates`,
`decimate`, `douglas_peucker` and `simplify_for_routing` — leaves the
sequence's `name` and `array_type` fields unchanged; only the point list is
modified. -/
theorem C10_mutators_only_touch_points (arr : GpsPointArray) (k : ℤ)
    (cosd sqrtQ : ℚ → ℚ) (ε : ℚ) (t : ℤ) :
    (arr.reverse.name = arr.name ∧ arr.reverse.array_type = arr.array_type) ∧
    (arr.remove_duplicates.name = arr.name ∧
      arr.remove_duplicates.array_type = arr.array_type) ∧
    ((arr.decimate k).name = arr.name ∧
      (arr.decimate k).array_type = arr.array_type) ∧
    ((arr.douglas_peucker cosd sqrtQ ε).name = arr.name ∧
      (arr.douglas_peucker cosd sqrtQ ε).array_type = arr.array_type) ∧
    ((arr.simplify_for_routing cosd sqrtQ t).name = arr.name ∧
      (arr.simplify_for_routing cosd sqrtQ t).array_type = arr.array_type) :=
  ⟨⟨rfl, rfl⟩, ⟨rfl, rfl⟩, decimate_name_type arr k,
    douglas_peucker_name_type arr cosd sqrtQ ε,
    simplify_for_routing_name_type arr cosd sqrtQ t⟩

/-- **C8.** The degenerate conditions are silent no-ops, never errors:
`douglas_peucker` with fewer than 3 points or `epsilon_m ≤ 0`, `decimate`
with `keep_every_n < 2` or fewer than 3 points, and `simplify_for_routing`
with current length ≤ `target_points` each leave the sequence completely
unchanged.  (All modelled operations are total Lean functions, so no
exception is possible.) -/
theorem C8_degenerate_noops (arr : GpsPointArray) (cosd sqrtQ : ℚ → ℚ)
    (ε : ℚ) (k t : ℤ) :
    (arr.points.length < 3 ∨ ε ≤ 0 → arr.douglas_peucker cosd sqrtQ ε = arr) ∧
    (k < 2 ∨ arr.points.length < 3 → arr.decimate k = arr) ∧
    ((arr.points.length : ℤ) ≤ t → arr.simplify_for_routing cosd sqrtQ t = arr) := by
  refine ⟨fun h => ?_, fun h => ?_, fun h => ?_⟩
  · simp only [GpsPointArray.douglas_peucker]
    rw [if_pos h]
  · simp only [GpsPointArray.decimate]
    rw [if_pos h]
  · simp only [GpsPointArray.simplify_for_routing]
    rw [if_pos h]

/-- Witness for C8: the degenerate no-ops at concrete inputs. -/
theorem C8_degenerate_noops_witness :
    arrTwo.douglas_peucker id id 1 = arrTwo ∧
    arrTwelve.decimate 1 = arrTwelve ∧
    arrTwo.simplify_for_routing id id 7 = arrTwo :=
  ⟨(C8_degenerate_noops arrTwo id id 1 1 7).1 (Or.inl (by decide)),
   (C8_degenerate_noops arrTwelve id id 1 1 7).2.1 (Or.inl (by decide)),
   (C8_degenerate_noops arrTwo id id 1 1 7).2.2 (by decide)⟩

/-- **C9.** The perpendicular-distance computation is total and never
divides by zero: when the projected segment endpoints coincide
(`dx = 0` and `dy = 0`) the result degenerates to the point-to-point
distance from the query point to the segment start in the same
latitude-scaled planar metric, and otherwise the divisor
`dx·dx + dy·dy` of the projection parameter is nonzero. -/
theorem C9_perpendicular_distance_total (cosd sqrtQ : ℚ → ℚ) (pt ls le : GpsPoint) :
    (le.lng * cosd pt.lat - ls.lng * cosd pt.lat = 0 ∧ le.lat - ls.lat = 0 →
      perpendicular_distance cosd sqrtQ pt ls le =
        point_to_point_distance cosd sqrtQ pt ls) ∧
    (¬(le.lng * cosd pt.lat - ls.lng * cosd pt.lat = 0 ∧ le.lat - ls.lat = 0) →
      (le.lng * cosd pt.lat - ls.lng * cosd pt.lat) *
          (le.lng * cosd pt.lat - ls.lng * cosd pt.lat) +
        (le.lat - ls.lat) * (le.lat - ls.lat) ≠ 0) := by
  constructor
  · intro h
    simp only [perpendicular_distance, point_to_point_distance]
    rw [if_pos h]
  · intro h hz
    rcases not_and_or.mp h with h1 | h1
    · have hpos : 0 < (le.lng * cosd pt.lat - ls.lng * cosd pt.lat) *
          (le.lng * cosd pt.lat - ls.lng * cosd pt.lat) := mul_self_pos.mpr h1
      nlinarith [mul_self_nonneg (le.lat - ls.lat)]
    · have hpos : 0 < (le.lat - ls.lat) * (le.lat - ls.lat) := mul_self_pos.mpr h1
      nlinarith [mul_self_nonneg (le.lng * cosd pt.lat - ls.lng * cosd pt.lat)]

/-- Witness for C9: a coincident segment (both endpoints the same point)
degenerates to the point-to-point distance, and a non-degenerate segment
has a nonzero divisor. -/
theorem C9_perpendicular_distance_total_witness :
    perpendicular_distance id id (mkPt 2) (mkPt 1) (mkPt 1) =
      point_to_point_distance id id (mkPt 2) (mkPt 1) ∧
    ((mkPt 3).lng * id (mkPt 2).lat - (mkPt 1).lng * id (mkPt 2).lat) *
        ((mkPt 3).lng * id (mkPt 2).lat - (mkPt 1).lng * id (mkPt 2).lat) +
      ((mkPt 3).lat - (mkPt 1).lat) * ((mkPt 3).lat - (mkPt 1).lat) ≠ 0 :=
  ⟨(C9_perpendicular_distance_total id id (mkPt 2) (mkPt 1) (mkPt 1)).1
      ⟨sub_self _, sub_self _⟩,
   (C9_perpendicular_distance_total id id (mkPt 2) (mkPt 1) (mkPt 3)).2
      (by norm_num [mkPt])⟩

theorem rat_min?_spec (l : List ℚ) (hl : l ≠ []) :
    ∃ a, l.min? = some a ∧ a ∈ l ∧ ∀ b ∈ l, a ≤ b := by
  cases h : l.min? with
  | none => exact absurd (List.min?_eq_none_iff.mp h) hl
  | some a =>
    haveI : Std.Antisymm fun x1 x2 : ℚ => x1 ≤ x2 := ⟨fun hxy hyx => le_antisymm hxy hyx⟩
    have hc := (List.min?_eq_some_iff (fun x => le_refl x) (fun x y => min_choice x y)
      (fun x y z => le_min_iff)).mp h
    exact ⟨a, rfl, hc.1, hc.2⟩

theorem rat_max?_spec (l : List ℚ) (hl : l ≠ []) :
    ∃ a, l.max? = some a ∧ a ∈ l ∧ ∀ b ∈ l, b ≤ a := by
  cases h : l.max? with
  | none => exact absurd (List.max?_eq_none_iff.mp h) hl
  | some a =>
    haveI : Std.Antisymm fun x1 x2 : ℚ => x1 ≤ x2 := ⟨fun hxy hyx => le_antisymm hxy hyx⟩
    have hc := (List.max?_eq_some_iff (fun x => le_refl x) (fun x y => max_choice x y)
      (fun x y z => max_le_iff)).mp h
    exact ⟨a, rfl, hc.1, hc.2⟩

/-- Counterexample to C3 as stated: `arrOriginOnly` is a nonempty sequence
(its only point sits exactly at geographic `(0,0)`, hence is invalid), and
on it `bounds` returns no value at all — the Python code reaches
`min([])`, which raises `ValueError`. -/
theorem C3_counterexample_bounds_raises :
    arrOriginOnly.points ≠ [] ∧ arrOriginOnly.bounds = none := by
  exact ⟨by decide, rfl⟩

/-- **C3 (amended).** `bounds()` returns `(0, 0, 0, 0)` for the empty
sequence; for every sequence containing at least one valid point — a point
with latitude ≠ 0 or longitude ≠ 0 — it returns the component-wise
minima/maxima of latitude and longitude over exactly the valid points.
(For a nonempty sequence all of whose points are invalid it raises
`ValueError`; see `C3_counterexample_bounds_raises`.) -/
theorem C3_bounds_amended (arr : GpsPointArray) :
    (arr.points = [] → arr.bounds = some (0, 0, 0, 0)) ∧
    ((∃ p ∈ arr.points, p.isValid = true) →
      ∃ a b c d, arr.bounds = some (a, b, c, d) ∧
        (∃ p ∈ arr.points, p.isValid = true ∧ p.lat = a) ∧
        (∃ p ∈ arr.points, p.isValid = true ∧ p.lng = b) ∧
        (∃ p ∈ arr.points, p.isValid = true ∧ p.lat = c) ∧
        (∃ p ∈ arr.points, p.isValid = true ∧ p.lng = d) ∧
        ∀ p ∈ arr.points, p.isValid = true →
          a ≤ p.lat ∧ b ≤ p.lng ∧ p.lat ≤ c ∧ p.lng ≤ d) := by
  constructor
  · intro h
    simp only [GpsPointArray.bounds]
    rw [if_pos h]
  · rintro ⟨p, hp, hv⟩
    have hne : arr.points ≠ [] := List.ne_nil_of_mem hp
    have hpL : p ∈ arr.points.filter fun q => q.isValid :=
      List.mem_filter.mpr ⟨hp, hv⟩
    have hlats : ((arr.points.filter fun q => q.isValid).map GpsPoint.lat) ≠ [] :=
      List.ne_nil_of_mem (List.mem_map_of_mem GpsPoint.lat hpL)
    have hlngs : ((arr.points.filter fun q => q.isValid).map GpsPoint.lng) ≠ [] :=
      List.ne_nil_of_mem (List.mem_map_of_mem GpsPoint.lng hpL)
    obtain ⟨a, hmina, haMem, haLe⟩ := rat_min?_spec _ hlats
    obtain ⟨b, hminb, hbMem, hbLe⟩ := rat_min?_spec _ hlngs
    obtain ⟨c, hmaxc, hcMem, hcLe⟩ := rat_max?_spec _ hlats
    obtain ⟨d, hmaxd, hdMem, hdLe⟩ := rat_max?_spec _ hlngs
    refine ⟨a, b, c, d, ?_, ?_, ?_, ?_, ?_, ?_⟩
    · simp only [GpsPointArray.bounds]
      rw [if_neg hne, hmina, hminb, hmaxc, hmaxd]
    · obtain ⟨q, hqL, hq⟩ := List.mem_map.mp haMem
      obtain ⟨hqP, hqV⟩ := List.mem_filter.mp hqL
      exact ⟨q, hqP, hqV, hq⟩
    · obtain ⟨q, hqL, hq⟩ := List.mem_map.mp hbMem
      obtain ⟨hqP, hqV⟩ := List.mem_filter.mp hqL
      exact ⟨q, hqP, hqV, hq⟩
    · obtain ⟨q, hqL, hq⟩ := List.mem_map.mp hcMem
      obtain ⟨hqP, hqV⟩ := List.mem_filter.mp hqL
      exact ⟨q, hqP, hqV, hq⟩
    · obtain ⟨q, hqL, hq⟩ := List.mem_map.mp hdMem
      obtain ⟨hqP, hqV⟩ := List.mem_filter.mp hqL
      exact ⟨q, hqP, hqV, hq⟩
    · intro q hq hqv
      have hqL : q ∈ arr.points.filter fun r => r.isValid :=
        List.mem_filter.mpr ⟨hq, hqv⟩
      exact ⟨haLe _ (List.mem_map_of_mem GpsPoint.lat hqL),
        hbLe _ (List.mem_map_of_mem GpsPoint.lng hqL),
        hcLe _ (List.mem_map_of_mem GpsPoint.lat hqL),
        hdLe _ (List.mem_map_of_mem GpsPoint.lng hqL)⟩

/-- Witness for C3 (amended): the empty sequence and a concrete sequence
with a valid point. -/
theorem C3_bounds_amended_witness :
    GpsPointArray.bounds { points := [] } = some (0, 0, 0, 0) ∧
    (∃ a b c d, arrTwo.bounds = some (a, b, c, d) ∧
      (∃ p ∈ arrTwo.points, p.isValid = true ∧ p.lat = a) ∧
      (∃ p ∈ arrTwo.points, p.isValid = true ∧ p.lng = b) ∧
      (∃ p ∈ arrTwo.points, p.isValid = true ∧ p.lat = c) ∧
      (∃ p ∈ arrTwo.points, p.isValid = true ∧ p.lng = d) ∧
      ∀ p ∈ arrTwo.points, p.isValid = true →
        a ≤ p.lat ∧ b ≤ p.lng ∧ p.lat ≤ c ∧ p.lng ≤ d) :=
  ⟨(C3_bounds_amended { points := [] }).1 rfl,
   (C3_bounds_amended arrTwo).2 ⟨mkPt 0, by decide⟩⟩

/-- **C4.** `decimate` is a no-op when `keep_every_n < 2` or the length is
less than 3; otherwise the output is the input filtered, in original order,
to index 0, the interior indices `i ∈ 1..len-2` with
`i mod keep_every_n = 0`, and index `len - 1`. -/
theorem C4_decimate_spec (arr : GpsPointArray) (k : ℤ) :
    (k < 2 ∨ arr.points.length < 3 → arr.decimate k = arr) ∧
    (¬(k < 2 ∨ arr.points.length < 3) →
      (arr.decimate k).points =
        ((List.range arr.points.length).filter fun i =>
          decide (i = 0 ∨ (1 ≤ i ∧ i ≤ arr.points.length - 2 ∧ Int.ofNat i % k = 0) ∨
            i = arr.points.length - 1)).map fun i => arr.points.getD i default) := by
  constructor
  · intro h
    simp only [GpsPointArray.decimate]
    rw [if_pos h]
  · intro h
    have hn : 3 ≤ arr.points.length := by omega
    simp only [GpsPointArray.decimate]
    rw [if_neg h]
    set n := arr.points.length with hn_def
    have e1 : List.range' 1 (n - 2) ++ List.range' (n - 1) 1 = List.range' 1 (n - 1) := by
      have ha := List.range'_append 1 (n - 2) 1 1
      rw [show 1 + 1 * (n - 2) = n - 1 by omega, show 1 + (n - 2) = n - 1 by omega] at ha
      exact ha
    have e2 : List.range' 0 1 ++ List.range' 1 (n - 1) = List.range' 0 n := by
      have ha := List.range'_append 0 1 (n - 1) 1
      rw [show 0 + 1 * 1 = 1 by omega, show n - 1 + 1 = n by omega] at ha
      exact ha
    have e3 : List.range n = List.range' 0 1 ++ (List.range' 1 (n - 2) ++ List.range' (n - 1) 1) := by
      rw [e1, e2, List.range_eq_range']
    rw [e3, List.filter_append, List.filter_append]
    have hP0 : (List.range' 0 1).filter (fun i =>
        decide (i = 0 ∨ (1 ≤ i ∧ i ≤ n - 2 ∧ Int.ofNat i % k = 0) ∨ i = n - 1)) = [0] := by
      simp [List.range'_one]
    have hPl : (List.range' (n - 1) 1).filter (fun i =>
        decide (i = 0 ∨ (1 ≤ i ∧ i ≤ n - 2 ∧ Int.ofNat i % k = 0) ∨ i = n - 1)) = [n - 1] := by
      simp [List.range'_one]
    have hMid : (List.range' 1 (n - 2)).filter (fun i =>
        decide (i = 0 ∨ (1 ≤ i ∧ i ≤ n - 2 ∧ Int.ofNat i % k = 0) ∨ i = n - 1)) =
        (List.range' 1 (n - 2)).filter fun i => decide (Int.ofNat i % k = 0) := by
      apply List.filter_congr
      intro i hi
      obtain ⟨h1i, h2i⟩ := List.mem_range'_1.mp hi
      apply decide_eq_decide.mpr
      constructor
      · rintro (rfl | ⟨-, -, hm⟩ | rfl)
        · omega
        · exact hm
        · omega
      · intro hm
        exact Or.inr (Or.inl ⟨h1i, by omega, hm⟩)
    rw [hP0, hPl, hMid]
    simp [List.map_append]

/-- Witness for C4: the twelve-point sequence with `keep_every_n = 3` keeps
exactly the points at indices 0, 3, 6, 9 and 11. -/
theorem C4_decimate_spec_witness :
    ¬((3 : ℤ) < 2 ∨ arrTwelve.points.length < 3) ∧
    ((arrTwelve.decimate 3).points =
      ((List.range arrTwelve.points.length).filter fun i =>
        decide (i = 0 ∨ (1 ≤ i ∧ i ≤ arrTwelve.points.length - 2 ∧ Int.ofNat i % 3 = 0) ∨
          i = arrTwelve.points.length - 1)).map fun i => arrTwelve.points.getD i default) ∧
    (arrTwelve.decimate 3).points = [mkPt 0, mkPt 3, mkPt 6, mkPt 9, mkPt 11] :=
  ⟨by decide, (C4_decimate_spec arrTwelve 3).2 (by decide), by decide⟩

theorem enumFrom_succ_map {α : Type _} (l : List α) (n : ℕ) :
    List.enumFrom (n + 1) l = (List.enumFrom n l).map (Prod.map (· + 1) id) := by
  induction l generalizing n with
  | nil => rfl
  | cons a tl ih => simp [List.enumFrom_cons, ih, Prod.map]

theorem removeDupAux_spec (ps : List GpsPoint) :
    ∀ (pre : List GpsPoint) (seen : List (ℚ × ℚ)),
    (∀ x, x ∈ seen ↔ ∃ q ∈ pre, (q.lat, q.lng) = x) →
    removeDupAux ps seen =
      (ps.enum.filter fun ip =>
        @decide (∀ q ∈ pre ++ ps.take ip.1, (q.lat, q.lng) ≠ (ip.2.lat, ip.2.lng))
          (List.decidableBAll _ _)).map Prod.snd := by
  induction ps with
  | nil =>
    intro pre seen _
    rfl
  | cons p tl ih =>
    intro pre seen hseen
    have henum : (p :: tl).enum = (0, p) :: (tl.enum.map (Prod.map (· + 1) id)) := by
      rw [List.enum_cons]
      congr 1
      simpa using enumFrom_succ_map tl 0
    have htail : ((tl.enum.map (Prod.map (· + 1) id)).filter fun ip =>
          @decide (∀ q ∈ pre ++ (p :: tl).take ip.1, (q.lat, q.lng) ≠ (ip.2.lat, ip.2.lng))
            (List.decidableBAll _ _)).map Prod.snd =
        (tl.enum.filter fun ip =>
          @decide (∀ q ∈ (pre ++ [p]) ++ tl.take ip.1, (q.lat, q.lng) ≠ (ip.2.lat, ip.2.lng))
            (List.decidableBAll _ _)).map Prod.snd := by
      rw [List.filter_map, List.map_map]
      have hsnd : (Prod.snd ∘ Prod.map (· + 1) (id : GpsPoint → GpsPoint)) = Prod.snd := rfl
      rw [hsnd]
      congr 1
      apply List.filter_congr
      intro ip _
      apply decide_eq_decide.mpr
      have hlist : pre ++ (p :: tl).take (ip.1 + 1) = (pre ++ [p]) ++ tl.take ip.1 := by
        rw [List.take_succ_cons]
        simp
      constructor
      · intro hall q hq
        apply hall q
        rw [Prod.map, hlist]
        exact hq
      · intro hall q hq
        rw [Prod.map] at hq
        rw [hlist] at hq
        exact hall q hq
    by_cases hmem : (p.lat, p.lng) ∈ seen
    · have hstep : removeDupAux (p :: tl) seen = removeDupAux tl seen := by
        simp only [removeDupAux]
        rw [if_pos hmem]
      have hcond : (@decide (∀ q ∈ pre ++ (p :: tl).take (0, p).1,
          (q.lat, q.lng) ≠ ((0, p).2.lat, (0, p).2.lng)) (List.decidableBAll _ _)) = false := by
        apply decide_eq_false
        intro hall
        obtain ⟨q, hq, hkey⟩ := (hseen _).mp hmem
        exact hall q (List.mem_append_left _ hq) hkey
      rw [hstep, henum, List.filter_cons, hcond]
      simp only [Bool.false_eq_true, if_false]
      rw [htail]
      apply ih (pre ++ [p]) seen
      intro x
      constructor
      · intro hx
        obtain ⟨q, hq, hkey⟩ := (hseen x).mp hx
        exact ⟨q, List.mem_append_left _ hq, hkey⟩
      · rintro ⟨q, hq, hkey⟩
        rcases List.mem_append.mp hq with hq | hq
        · exact (hseen x).mpr ⟨q, hq, hkey⟩
        · rw [List.mem_singleton.mp hq] at hkey
          rw [← hkey]
          exact hmem
    · have hstep : removeDupAux (p :: tl) seen =
          p :: removeDupAux tl ((p.lat, p.lng) :: seen) := by
        simp only [removeDupAux]
        rw [if_neg hmem]
      have hcond : (@decide (∀ q ∈ pre ++ (p :: tl).take (0, p).1,
          (q.lat, q.lng) ≠ ((0, p).2.lat, (0, p).2.lng)) (List.decidableBAll _ _)) = true := by
        apply decide_eq_true
        intro q hq hkey
        simp only [List.take_zero, List.append_nil] at hq
        exact hmem ((hseen _).mpr ⟨q, hq, hkey⟩)
      rw [hstep, henum, List.filter_cons, hcond]
      simp only [if_true]
      rw [List.map_cons]
      congr 1
      rw [htail]
      apply ih (pre ++ [p]) ((p.lat, p.lng) :: seen)
      intro x
      constructor
      · intro hx
        rcases List.mem_cons.mp hx with hx | hx
        · exact ⟨p, List.mem_append_right _ (List.mem_singleton.mpr rfl), hx.symm⟩
        · obtain ⟨q, hq, hkey⟩ := (hseen x).mp hx
          exact ⟨q, List.mem_append_left _ hq, hkey⟩
      · rintro ⟨q, hq, hkey⟩
        rcases List.mem_append.mp hq with hq | hq
        · exact List.mem_cons_of_mem _ ((hseen x).mpr ⟨q, hq, hkey⟩)
        · rw [List.mem_singleton.mp hq] at hkey
          rw [← hkey]
          exact List.mem_cons_self _ _

theorem removeDupAux_not_seen (ps : List GpsPoint) :
    ∀ (seen : List (ℚ × ℚ)) (p : GpsPoint), p ∈ removeDupAux ps seen →
      (p.lat, p.lng) ∉ seen := by
  induction ps with
  | nil => intro seen p hp; cases hp
  | cons q tl ih =>
    intro seen p hp
    simp only [removeDupAux] at hp
    split at hp
    · exact ih seen p hp
    · rcases List.mem_cons.mp hp with rfl | hp
      · assumption
      · intro hmem
        exact ih _ p hp (List.mem_cons_of_mem _ hmem)

theorem removeDupAux_pairwise (ps : List GpsPoint) :
    ∀ seen : List (ℚ × ℚ),
      (removeDupAux ps seen).Pairwise fun p q => (p.lat, p.lng) ≠ (q.lat, q.lng) := by
  induction ps with
  | nil => intro seen; exact List.Pairwise.nil
  | cons p tl ih =>
    intro seen
    simp only [removeDupAux]
    split
    · exact ih seen
    · refine List.Pairwise.cons ?_ (ih _)
      intro q hq hkey
      have := removeDupAux_not_seen tl _ q hq
      rw [← hkey] at this
      exact this (List.mem_cons_self _ _)

/-- **C5.** `remove_duplicates()` keeps exactly the first occurrence of each
distinct `(latitude, longitude)` pair — comparison by exact coordinate
equality, first-seen order preserved — and afterwards no two points of the
sequence share an identical `(latitude, longitude)` pair. -/
theorem C5_remove_duplicates_first_occurrences (arr : GpsPointArray) :
    arr.remove_duplicates.points = firstOccurrences arr.points ∧
    arr.remove_duplicates.points.Pairwise
      (fun p q => (p.lat, p.lng) ≠ (q.lat, q.lng)) := by
  constructor
  · have hs := removeDupAux_spec arr.points [] [] (by simp)
    have hfun : (fun ip : ℕ × GpsPoint =>
        @decide (∀ q ∈ [] ++ arr.points.take ip.1, (q.lat, q.lng) ≠ (ip.2.lat, ip.2.lng))
          (List.decidableBAll _ _)) =
        fun ip : ℕ × GpsPoint =>
        @decide (∀ q ∈ arr.points.take ip.1, (q.lat, q.lng) ≠ (ip.2.lat, ip.2.lng))
          (List.decidableBAll _ _) := by
      funext ip
      apply decide_eq_decide.mpr
      rw [List.nil_append]
    rw [hfun] at hs
    exact hs
  · exact removeDupAux_pairwise arr.points []

theorem scan_foldl_char (pd : GpsPoint → GpsPoint → GpsPoint → ℚ) (pts : List GpsPoint)
    (s e : ℕ) (l : List ℕ) (hl : l.Pairwise (· < ·)) :
    ∀ acc : ℚ × ℕ,
      (l.foldl (scanStep pd pts s e) acc = acc ∧
        ∀ i ∈ l, chordDist pd pts s e i ≤ acc.1) ∨
      ((l.foldl (scanStep pd pts s e) acc).2 ∈ l ∧
        chordDist pd pts s e (l.foldl (scanStep pd pts s e) acc).2 =
          (l.foldl (scanStep pd pts s e) acc).1 ∧
        acc.1 < (l.foldl (scanStep pd pts s e) acc).1 ∧
        (∀ i ∈ l, chordDist pd pts s e i ≤ (l.foldl (scanStep pd pts s e) acc).1) ∧
        ∀ i ∈ l, i < (l.foldl (scanStep pd pts s e) acc).2 →
          chordDist pd pts s e i < (l.foldl (scanStep pd pts s e) acc).1) := by
  induction l with
  | nil =>
    intro acc
    exact Or.inl ⟨rfl, by simp⟩
  | cons x t ih =>
    intro acc
    have hxt : ∀ y ∈ t, x < y := fun y hy => List.rel_of_pairwise_cons hl hy
    have hpt : t.Pairwise (· < ·) := hl.of_cons
    have hfold : (x :: t).foldl (scanStep pd pts s e) acc =
        t.foldl (scanStep pd pts s e) (scanStep pd pts s e acc x) := rfl
    by_cases hupd : acc.1 < chordDist pd pts s e x
    · have hstep : scanStep pd pts s e acc x = (chordDist pd pts s e x, x) := by
        simp only [scanStep]
        rw [if_pos hupd]
      rcases (ih hpt) (chordDist pd pts s e x, x) with ⟨heq, hbound⟩ | hr
      · refine Or.inr ?_
        rw [hfold, hstep, heq]
        refine ⟨List.mem_cons_self _ _, rfl, hupd, ?_, ?_⟩
        · intro i hi
          rcases List.mem_cons.mp hi with rfl | hi
          · exact le_refl _
          · exact hbound i hi
        · intro i hi hlt
          rcases List.mem_cons.mp hi with rfl | hi
          · exact absurd hlt (lt_irrefl _)
          · exact absurd hlt (not_lt_of_gt (hxt i hi))
      · obtain ⟨hmem, hval, hlt, hbound, hfirst⟩ := hr
        refine Or.inr ?_
        rw [hfold, hstep]
        refine ⟨List.mem_cons_of_mem _ hmem, hval, lt_trans hupd hlt, ?_, ?_⟩
        · intro i hi
          rcases List.mem_cons.mp hi with rfl | hi
          · exact le_of_lt hlt
          · exact hbound i hi
        · intro i hi hlti
          rcases List.mem_cons.mp hi with rfl | hi
          · exact hlt
          · exact hfirst i hi hlti
    · have hstep : scanStep pd pts s e acc x = acc := by
        simp only [scanStep]
        rw [if_neg hupd]
      rcases (ih hpt) acc with ⟨heq, hbound⟩ | hr
      · refine Or.inl ?_
        rw [hfold, hstep, heq]
        refine ⟨rfl, ?_⟩
        intro i hi
        rcases List.mem_cons.mp hi with rfl | hi
        · exact le_of_not_lt hupd
        · exact hbound i hi
      · obtain ⟨hmem, hval, hlt, hbound, hfirst⟩ := hr
        refine Or.inr ?_
        rw [hfold, hstep]
        refine ⟨List.mem_cons_of_mem _ hmem, hval, hlt, ?_, ?_⟩
        · intro i hi
          rcases List.mem_cons.mp hi with rfl | hi
          · exact le_of_lt (lt_of_le_of_lt (le_of_not_lt hupd) hlt)
          · exact hbound i hi
        · intro i hi hlti
          rcases List.mem_cons.mp hi with rfl | hi
          · exact lt_of_le_of_lt (le_of_not_lt hupd) hlt
          · exact hfirst i hi hlti

/-- The scan of a range either returns the initial `(0.0, start)` pair with
every interior distance at most 0, or returns the maximum interior distance
together with the first interior index attaining it. -/
theorem scanMax_char (pd : GpsPoint → GpsPoint → GpsPoint → ℚ) (pts : List GpsPoint)
    (s e : ℕ) :
    (scanMax pd pts s e = (0, s) ∧
      ∀ i ∈ List.range' (s + 1) (e - (s + 1)), chordDist pd pts s e i ≤ 0) ∨
    (0 < (scanMax pd pts s e).1 ∧
      (scanMax pd pts s e).2 ∈ List.range' (s + 1) (e - (s + 1)) ∧
      chordDist pd pts s e (scanMax pd pts s e).2 = (scanMax pd pts s e).1 ∧
      (∀ i ∈ List.range' (s + 1) (e - (s + 1)),
        chordDist pd pts s e i ≤ (scanMax pd pts s e).1) ∧
      ∀ i ∈ List.range' (s + 1) (e - (s + 1)), i < (scanMax pd pts s e).2 →
        chordDist pd pts s e i < (scanMax pd pts s e).1) := by
  have hp : (List.range' (s + 1) (e - (s + 1))).Pairwise (· < ·) :=
    List.pairwise_lt_range' _ _ 1 (by norm_num)
  rcases scan_foldl_char pd pts s e _ hp ((0 : ℚ), s) with ⟨heq, hbound⟩ | hr
  · exact Or.inl ⟨heq, hbound⟩
  · exact Or.inr ⟨hr.2.2.1, hr.1, hr.2.1, hr.2.2.2.1, hr.2.2.2.2⟩

/-- When the scanned maximum exceeds a nonnegative tolerance, the argmax is
a genuine interior index of the range. -/
theorem scanMax_pos (pd : GpsPoint → GpsPoint → GpsPoint → ℚ) (pts : List GpsPoint)
    {s e : ℕ} {ε : ℚ} (hε : 0 ≤ ε) (h2 : ¬e - s < 2)
    (hgt : ε < (scanMax pd pts s e).1) :
    s < (scanMax pd pts s e).2 ∧ (scanMax pd pts s e).2 < e ∧
      chordDist pd pts s e (scanMax pd pts s e).2 = (scanMax pd pts s e).1 ∧
      (∀ i, s < i → i < e → chordDist pd pts s e i ≤ (scanMax pd pts s e).1) ∧
      ∀ i, s < i → i < (scanMax pd pts s e).2 →
        chordDist pd pts s e i < (scanMax pd pts s e).1 := by
  have hse : s + 1 + (e - (s + 1)) = e := by omega
  rcases scanMax_char pd pts s e with ⟨heq, -⟩ | ⟨-, hmem, hval, hbound, hfirst⟩
  · rw [heq] at hgt
    exact absurd hgt (not_lt_of_le hε)
  · have hm := List.mem_range'_1.mp hmem
    rw [hse] at hm
    refine ⟨by omega, hm.2, hval, ?_, ?_⟩
    · intro i h1 h2'
      exact hbound i (List.mem_range'_1.mpr (by omega))
    · intro i h1 h2'
      have him : i < e := lt_trans h2' hm.2
      exact hfirst i (List.mem_range'_1.mpr (by omega)) h2'

theorem dpRecKeep_small (pd : GpsPoint → GpsPoint → GpsPoint → ℚ) (pts : List GpsPoint)
    (ε : ℚ) {s e : ℕ} (h : e - s < 2) :
    ∀ fuel, dpRecKeep pd pts ε fuel s e = ∅ := by
  intro fuel
  cases fuel with
  | zero => rfl
  | succ f =>
    simp only [dpRecKeep]
    rw [if_pos h]

theorem dpRKeep_small (pd : GpsPoint → GpsPoint → GpsPoint → ℚ) (pts : List GpsPoint)
    (ε : ℚ) {s e : ℕ} (h : e - s < 2) : dpRKeep pd pts ε s e = ∅ :=
  dpRecKeep_small pd pts ε h _

theorem dpRecKeep_subset (pd : GpsPoint → GpsPoint → GpsPoint → ℚ) (pts : List GpsPoint)
    {ε : ℚ} (hε : 0 ≤ ε) :
    ∀ (fuel : ℕ) (s e : ℕ), ∀ i ∈ dpRecKeep pd pts ε fuel s e, s < i ∧ i < e := by
  intro fuel
  induction fuel with
  | zero =>
    intro s e i hi
    cases hi
  | succ f ihf =>
    intro s e i hi
    simp only [dpRecKeep] at hi
    by_cases h2 : e - s < 2
    · rw [if_pos h2] at hi
      cases hi
    · rw [if_neg h2] at hi
      by_cases hgt : ε < (scanMax pd pts s e).1
      · rw [if_pos hgt] at hi
        obtain ⟨hsm, hme, -, -, -⟩ := scanMax_pos pd pts hε h2 hgt
        rcases Finset.mem_insert.mp hi with rfl | hi
        · exact ⟨hsm, hme⟩
        · rcases Finset.mem_union.mp hi with hi | hi
          · have := ihf s (scanMax pd pts s e).2 i hi
            exact ⟨this.1, lt_trans this.2 hme⟩
          · have := ihf (scanMax pd pts s e).2 e i hi
            exact ⟨lt_trans hsm this.1, this.2⟩
      · rw [if_neg hgt] at hi
        cases hi

theorem dpRKeep_subset (pd : GpsPoint → GpsPoint → GpsPoint → ℚ) (pts : List GpsPoint)
    {ε : ℚ} (hε : 0 ≤ ε) (s e : ℕ) :
    ∀ i ∈ dpRKeep pd pts ε s e, s < i ∧ i < e :=
  dpRecKeep_subset pd pts hε (e - s) s e

theorem dpRecKeep_fuel (pd : GpsPoint → GpsPoint → GpsPoint → ℚ) (pts : List GpsPoint)
    {ε : ℚ} (hε : 0 ≤ ε) :
    ∀ (fuel : ℕ) (s e : ℕ), e - s ≤ fuel →
      dpRecKeep pd pts ε fuel s e = dpRKeep pd pts ε s e := by
  intro fuel
  induction fuel using Nat.strong_induction_on with
  | _ fuel ih =>
    intro s e hle
    by_cases h2 : e - s < 2
    · rw [dpRecKeep_small pd pts ε h2, dpRKeep_small pd pts ε h2]
    · obtain ⟨f, rfl⟩ : ∃ f, fuel = f + 1 := ⟨fuel - 1, by omega⟩
      have hg : e - s = (e - s - 1) + 1 := by omega
      rw [dpRKeep, hg]
      simp only [dpRecKeep]
      rw [if_neg h2, if_neg h2]
      by_cases hgt : ε < (scanMax pd pts s e).1
      · rw [if_pos hgt, if_pos hgt]
        obtain ⟨hsm, hme, -, -, -⟩ := scanMax_pos pd pts hε h2 hgt
        rw [ih f (by omega) s (scanMax pd pts s e).2 (by omega),
          ih f (by omega) (scanMax pd pts s e).2 e (by omega),
          ih (e - s - 1) (by omega) s (scanMax pd pts s e).2 (by omega),
          ih (e - s - 1) (by omega) (scanMax pd pts s e).2 e (by omega)]
      · rw [if_neg hgt, if_neg hgt]

theorem dpRKeep_split (pd : GpsPoint → GpsPoint → GpsPoint → ℚ) (pts : List GpsPoint)
    {ε : ℚ} (hε : 0 ≤ ε) {s e : ℕ} (h2 : ¬e - s < 2)
    (hgt : ε < (scanMax pd pts s e).1) :
    dpRKeep pd pts ε s e = insert (scanMax pd pts s e).2
      (dpRKeep pd pts ε s (scanMax pd pts s e).2 ∪
        dpRKeep pd pts ε (scanMax pd pts s e).2 e) := by
  obtain ⟨hsm, hme, -, -, -⟩ := scanMax_pos pd pts hε h2 hgt
  have hg : e - s = (e - s - 1) + 1 := by omega
  rw [dpRKeep, hg]
  simp only [dpRecKeep]
  rw [if_neg h2, if_pos hgt,
    dpRecKeep_fuel pd pts hε (e - s - 1) s (scanMax pd pts s e).2 (by omega),
    dpRecKeep_fuel pd pts hε (e - s - 1) (scanMax pd pts s e).2 e (by omega)]

theorem dpRKeep_nosplit (pd : GpsPoint → GpsPoint → GpsPoint → ℚ) (pts : List GpsPoint)
    (ε : ℚ) {s e : ℕ} (h2 : ¬e - s < 2)
    (hng : ¬ε < (scanMax pd pts s e).1) :
    dpRKeep pd pts ε s e = ∅ := by
  have hg : e - s = (e - s - 1) + 1 := by omega
  rw [dpRKeep, hg]
  simp only [dpRecKeep]
  rw [if_neg h2, if_neg hng]

theorem getD_set_eq {α : Type _} (l : List α) (m i : ℕ) (b d : α) (hm : m < l.length) :
    (l.set m b).getD i d = if i = m then b else l.getD i d := by
  by_cases h : i = m
  · subst h
    rw [if_pos rfl, List.getD_eq_getElem _ _ (by rw [List.length_set]; exact hm),
      List.getElem_set]
    rw [if_pos rfl]
  · rw [if_neg h]
    by_cases hi : i < l.length
    · rw [List.getD_eq_getElem _ _ (by rw [List.length_set]; exact hi),
        List.getD_eq_getElem _ _ hi, List.getElem_set, if_neg (fun hmi => h hmi.symm)]
    · rw [List.getD_eq_default _ _ (by rw [List.length_set]; omega),
        List.getD_eq_default _ _ (by omega)]

theorem stackMarks_nil (pd : GpsPoint → GpsPoint → GpsPoint → ℚ) (pts : List GpsPoint)
    (ε : ℚ) : stackMarks pd pts ε [] = ∅ := rfl

theorem stackMarks_cons (pd : GpsPoint → GpsPoint → GpsPoint → ℚ) (pts : List GpsPoint)
    (ε : ℚ) (r : ℕ × ℕ) (rest : List (ℕ × ℕ)) :
    stackMarks pd pts ε (r :: rest) =
      dpRKeep pd pts ε r.1 r.2 ∪ stackMarks pd pts ε rest := rfl

/-- Pointwise description of the explicit-stack loop: a flag ends up set iff
it was already set or its index is kept by the recursive range splitting of
some range on the stack. -/
theorem dpLoop_getD (pd : GpsPoint → GpsPoint → GpsPoint → ℚ) (pts : List GpsPoint)
    {ε : ℚ} (hε : 0 ≤ ε) (stack : List (ℕ × ℕ)) (keep : List Bool) :
    (∀ r ∈ stack, r.2 < keep.length) →
    ∀ i, (dpLoop pd pts ε stack keep).getD i false =
      (keep.getD i false || decide (i ∈ stackMarks pd pts ε stack)) := by
  induction stack, keep using dpLoop.induct pd pts ε with
  | case1 keep =>
    intro _ i
    rw [dpLoop.eq_1, stackMarks_nil]
    simp
  | case2 s e rest keep h2 ih =>
    intro hlen i
    have hloop : dpLoop pd pts ε ((s, e) :: rest) keep = dpLoop pd pts ε rest keep := by
      rw [dpLoop.eq_2, if_pos h2]
    rw [hloop, ih (fun r hr => hlen r (List.mem_cons_of_mem _ hr)) i,
      stackMarks_cons, dpRKeep_small pd pts ε h2]
    simp
  | case3 s e rest keep h2 md m hscan hguard ih =>
    intro hlen i
    have he : e < keep.length := hlen (s, e) (List.mem_cons_self _ _)
    have hm : m < keep.length := lt_trans hguard.2.2 he
    have hloop : dpLoop pd pts ε ((s, e) :: rest) keep =
        dpLoop pd pts ε ((m, e) :: (s, m) :: rest) (keep.set m true) := by
      rw [dpLoop.eq_2, if_neg h2, hscan]
      exact dif_pos hguard
    have hgt : ε < (scanMax pd pts s e).1 := by
      rw [hscan]
      exact hguard.1
    have hsplit := dpRKeep_split pd pts hε h2 hgt
    rw [hscan] at hsplit
    rw [hloop, ih ?_ i]
    · rw [stackMarks_cons, stackMarks_cons, stackMarks_cons, hsplit,
        getD_set_eq keep m i true false hm]
      by_cases hi : i = m
      · subst hi
        simp
      · rw [if_neg hi]
        have hiff : i ∈ dpRKeep pd pts ε (m, e).1 (m, e).2 ∪
              (dpRKeep pd pts ε (s, m).1 (s, m).2 ∪ stackMarks pd pts ε rest) ↔
            i ∈ insert m (dpRKeep pd pts ε s m ∪ dpRKeep pd pts ε m e) ∪
              stackMarks pd pts ε rest := by
          simp only [Finset.mem_union, Finset.mem_insert, hi, false_or]
          tauto
        rw [decide_eq_decide.mpr hiff]
    · intro r hr
      rw [List.length_set]
      rcases List.mem_cons.mp hr with rfl | hr
      · exact he
      · rcases List.mem_cons.mp hr with rfl | hr
        · exact hm
        · exact hlen r (List.mem_cons_of_mem _ hr)
  | case4 s e rest keep h2 md m hscan hguard ih =>
    intro hlen i
    have hloop : dpLoop pd pts ε ((s, e) :: rest) keep = dpLoop pd pts ε rest keep := by
      rw [dpLoop.eq_2, if_neg h2, hscan]
      exact dif_neg hguard
    have hng : ¬ε < (scanMax pd pts s e).1 := by
      intro hgt
      obtain ⟨hsm, hme, -, -, -⟩ := scanMax_pos pd pts hε h2 hgt
      rw [hscan] at hgt hsm hme
      exact hguard ⟨hgt, hsm, hme⟩
    rw [hloop, ih (fun r hr => hlen r (List.mem_cons_of_mem _ hr)) i,
      stackMarks_cons, dpRKeep_nosplit pd pts ε h2 hng]
    simp

theorem keep0_getD {n : ℕ} (h3 : 3 ≤ n) (i : ℕ) :
    (((List.replicate n false).set 0 true).set (n - 1) true).getD i false =
      decide (i = 0 ∨ i = n - 1) := by
  rw [getD_set_eq _ _ _ _ _ (by simp only [List.length_set, List.length_replicate]; omega)]
  by_cases hi : i = n - 1
  · subst hi
    rw [if_pos rfl]
    simp
  · rw [if_neg hi, getD_set_eq _ _ _ _ _ (by simp only [List.length_replicate]; omega)]
    by_cases h0 : i = 0
    · subst h0
      rw [if_pos rfl]
      simp
    · rw [if_neg h0]
      have hrep : (List.replicate n false).getD i false = false := by
        by_cases hlt : i < n
        · rw [List.getD_eq_getElem _ _ (by simp only [List.length_replicate]; omega)]
          simp
        · rw [List.getD_eq_default _ _ (by simp only [List.length_replicate]; omega)]
      rw [hrep]
      simp [h0, hi]

theorem enum_filter_map (ps : List GpsPoint) :
    ∀ f : ℕ → Bool,
      (ps.enum.filter fun ip => f ip.1).map Prod.snd =
      ((List.range ps.length).filter f).map fun i => ps.getD i default := by
  induction ps with
  | nil => intro f; rfl
  | cons p tl ih =>
    intro f
    have hshift : List.enumFrom 1 tl = tl.enum.map (Prod.map (· + 1) id) := by
      simpa using enumFrom_succ_map tl 0
    rw [List.enum_cons, hshift, List.length_cons, List.range_succ_eq_map]
    simp only [List.filter_cons]
    have hcomp : ((tl.enum.map (Prod.map (· + 1) id)).filter fun ip => f ip.1).map Prod.snd =
        ((List.range tl.length).filter fun i => f (i + 1)).map fun i => tl.getD i default := by
      rw [List.filter_map, List.map_map]
      have h1 : (Prod.snd ∘ Prod.map (· + 1) (id : GpsPoint → GpsPoint)) = Prod.snd := rfl
      have h2 : ((fun ip : ℕ × GpsPoint => f ip.1) ∘ Prod.map (· + 1) id) =
          fun ip : ℕ × GpsPoint => f (ip.1 + 1) := rfl
      rw [h1, h2]
      exact ih fun i => f (i + 1)
    have hcompR : ((List.map Nat.succ (List.range tl.length)).filter f).map
          (fun i => (p :: tl).getD i default) =
        ((List.range tl.length).filter fun i => f (i + 1)).map fun i => tl.getD i default := by
      rw [List.filter_map, List.map_map]
      have h2 : (f ∘ Nat.succ) = fun i => f (i + 1) := rfl
      have h3 : ((fun i => (p :: tl).getD i default) ∘ Nat.succ) =
          fun i => tl.getD i default := by
        funext i
        exact List.getD_cons_succ
      rw [h2, h3]
    by_cases h0 : f 0 = true
    · rw [if_pos h0, if_pos h0, List.map_cons, List.map_cons, hcomp, hcompR]
      rfl
    · rw [if_neg h0, if_neg h0, hcomp, hcompR]

/-- The output of `douglas_peucker` (outside the degenerate guard): the
input filtered to the kept-index set `{0, n-1} ∪ dpRKeep(0, n-1)`, in
original order. -/
theorem douglas_peucker_points_eq (arr : GpsPointArray) (cosd sqrtQ : ℚ → ℚ) {ε : ℚ}
    (h3 : 3 ≤ arr.points.length) (hε : 0 < ε) :
    (arr.douglas_peucker cosd sqrtQ ε).points =
      ((List.range arr.points.length).filter fun i =>
        decide (i ∈ insert 0 (insert (arr.points.length - 1)
          (dpRKeep (perpendicular_distance cosd sqrtQ) arr.points ε 0
            (arr.points.length - 1))))).map fun i => arr.points.getD i default := by
  have hno : ¬(arr.points.length < 3 ∨ ε ≤ 0) := by
    push_neg
    exact ⟨by omega, hε⟩
  simp only [GpsPointArray.douglas_peucker]
  rw [if_neg hno]
  have hkeep : ∀ i, (dpLoop (perpendicular_distance cosd sqrtQ) arr.points ε
      [(0, arr.points.length - 1)]
      (((List.replicate arr.points.length false).set 0 true).set
        (arr.points.length - 1) true)).getD i false =
      decide (i ∈ insert 0 (insert (arr.points.length - 1)
        (dpRKeep (perpendicular_distance cosd sqrtQ) arr.points ε 0
          (arr.points.length - 1)))) := by
    intro i
    rw [dpLoop_getD (perpendicular_distance cosd sqrtQ) arr.points (le_of_lt hε) _ _ ?_ i]
    · rw [keep0_getD h3 i, stackMarks_cons, stackMarks_nil, Bool.or_eq_decide]
      apply decide_eq_decide.mpr
      simp only [Finset.union_empty, Finset.mem_insert]
      rw [or_assoc]
    · intro r hr
      rcases List.mem_cons.mp hr with rfl | hr
      · simp only [List.length_set, List.length_replicate]
        omega
      · cases hr
  rw [enum_filter_map arr.points (fun j =>
    (dpLoop (perpendicular_distance cosd sqrtQ) arr.points ε
      [(0, arr.points.length - 1)]
      (((List.replicate arr.points.length false).set 0 true).set
        (arr.points.length - 1) true)).getD j false)]
  show (((List.range arr.points.length).filter fun j =>
      (dpLoop (perpendicular_distance cosd sqrtQ) arr.points ε
        [(0, arr.points.length - 1)]
        (((List.replicate arr.points.length false).set 0 true).set
          (arr.points.length - 1) true)).getD j false).map
      fun i => arr.points.getD i default) = _
  congr 1
  apply List.filter_congr
  intro i _
  exact hkeep i

theorem find?_first_of_sorted (p : ℕ → Bool) (x : ℕ) :
    ∀ l : List ℕ, l.Pairwise (· < ·) → x ∈ l → p x = true →
      (∀ y ∈ l, y < x → p y = false) → l.find? p = some x := by
  intro l
  induction l with
  | nil =>
    intro _ hx
    cases hx
  | cons y t ih =>
    intro hp hx hpx hbefore
    by_cases hxy : y = x
    · subst hxy
      exact List.find?_cons_of_pos _ hpx
    · have hxt : x ∈ t := by
        rcases List.mem_cons.mp hx with h | h
        · exact absurd h.symm hxy
        · exact h
      have hyx : y < x := List.rel_of_pairwise_cons hp hxt
      have hpy : p y = false := hbefore y (List.mem_cons_self _ _) hyx
      rw [List.find?_cons_of_neg _ (by rw [hpy]; exact Bool.false_ne_true)]
      exact ih hp.of_cons hxt hpx fun z hz hzx =>
        hbefore z (List.mem_cons_of_mem _ hz) hzx

/-- The claim-side first-argmax recursion coincides with the source-side
scan recursion for any nonnegative tolerance. -/
theorem dpSpecRec_eq_dpRecKeep (pd : GpsPoint → GpsPoint → GpsPoint → ℚ)
    (pts : List GpsPoint) {ε : ℚ} (hε : 0 ≤ ε) :
    ∀ (fuel : ℕ) (s e : ℕ), dpSpecRec pd pts ε fuel s e = dpRecKeep pd pts ε fuel s e := by
  intro fuel
  induction fuel with
  | zero =>
    intro s e
    rfl
  | succ f ih =>
    intro s e
    simp only [dpSpecRec, dpRecKeep]
    by_cases h2 : e - s < 2
    · rw [if_pos h2, if_pos h2]
    · rw [if_neg h2, if_neg h2]
      rcases scanMax_char pd pts s e with ⟨heq, hbound⟩ | ⟨hpos, hmem, hval, hbound, hfirst⟩
      · have hng : ¬ε < (scanMax pd pts s e).1 := by
          rw [heq]
          exact not_lt_of_le hε
        rw [if_neg hng]
        cases hfind : specArgmaxFirst pd pts s e with
        | none => rfl
        | some m' =>
          have hm' : m' ∈ List.range' (s + 1) (e - (s + 1)) :=
            List.mem_of_find?_eq_some hfind
          have hle : chordDist pd pts s e m' ≤ 0 := hbound m' hm'
          simp only [hfind]
          rw [if_neg (not_lt_of_le (le_trans hle hε))]
      · have hfind : specArgmaxFirst pd pts s e = some (scanMax pd pts s e).2 := by
          apply find?_first_of_sorted _ _ _
            (List.pairwise_lt_range' _ _ 1 (by norm_num)) hmem
          · apply decide_eq_true
            intro j hj
            rw [hval]
            exact hbound j hj
          · intro y hy hyx
            apply decide_eq_false
            intro hall
            have h1 : chordDist pd pts s e y < (scanMax pd pts s e).1 := hfirst y hy hyx
            have h2' := hall (scanMax pd pts s e).2 hmem
            rw [hval] at h2'
            exact absurd h2' (not_le_of_lt h1)
        simp only [hfind, hval]
        by_cases hgt : ε < (scanMax pd pts s e).1
        · rw [if_pos hgt, if_pos hgt, ih, ih]
        · rw [if_neg hgt, if_neg hgt]

/-- The claim-side kept-index set coincides with the source-side one. -/
theorem specKeepSet_eq (pd : GpsPoint → GpsPoint → GpsPoint → ℚ)
    (pts : List GpsPoint) {ε : ℚ} (hε : 0 ≤ ε) :
    specKeepSet pd pts ε =
      insert 0 (insert (pts.length - 1) (dpRKeep pd pts ε 0 (pts.length - 1))) := by
  unfold specKeepSet
  rw [dpSpecRec_eq_dpRecKeep pd pts hε, dpRecKeep_fuel pd pts hε _ _ _ (by omega)]

theorem filtered_head (ps : List GpsPoint) (f : ℕ → Bool) (hne : ps ≠ [])
    (h0 : f 0 = true) :
    (((List.range ps.length).filter f).map fun i => ps.getD i default).head? =
      ps.head? := by
  obtain ⟨p, tl, rfl⟩ := List.exists_cons_of_ne_nil hne
  rw [List.length_cons, List.range_succ_eq_map]
  rw [List.filter_cons_of_pos h0, List.map_cons]
  rfl

theorem filtered_getLast (ps : List GpsPoint) (f : ℕ → Bool) (hne : ps ≠ [])
    (hl : f (ps.length - 1) = true) :
    (((List.range ps.length).filter f).map fun i => ps.getD i default).getLast? =
      ps.getLast? := by
  obtain ⟨m, hm⟩ : ∃ m, ps.length = m + 1 :=
    ⟨ps.length - 1, by cases hps : ps with
      | nil => exact absurd hps hne
      | cons a l => simp [hps]⟩
  rw [hm]
  rw [List.range_succ, List.filter_append, List.map_append]
  have hfm : List.filter f [m] = [m] := by
    rw [List.filter_cons_of_pos (by rw [show m = ps.length - 1 by omega]; exact hl)]
    rfl
  rw [hfm, List.map_cons]
  simp only [List.map_nil]
  rw [List.getLast?_concat]
  rw [List.getLast?_eq_getElem?, show ps.length - 1 = m by omega,
    List.getElem?_eq_getElem (by omega), List.getD_eq_getElem _ _ (by omega)]

/-- **C1.** For every sequence of at least 3 points and every positive
tolerance `epsilon_m`, `douglas_peucker` keeps exactly the indices computed
by the range-splitting procedure (`specKeepSet`: indices 0 and `len - 1`,
plus, for each processed range with `end - start ≥ 2`, the interior index
of maximum perpendicular distance from the chord — ties broken by the first
index, scanning low to high — kept iff that maximum exceeds `epsilon_m`, in
which case both sub-ranges are processed).  The output is the input
filtered to the kept indices in original order, and the first and last
points always survive. -/
theorem C1_douglas_peucker_range_splitting (arr : GpsPointArray)
    (cosd sqrtQ : ℚ → ℚ) (ε : ℚ) (h3 : 3 ≤ arr.points.length) (hε : 0 < ε) :
    ((arr.douglas_peucker cosd sqrtQ ε).points =
      ((List.range arr.points.length).filter fun i =>
        decide (i ∈ specKeepSet (perpendicular_distance cosd sqrtQ) arr.points ε)).map
        fun i => arr.points.getD i default) ∧
    0 ∈ specKeepSet (perpendicular_distance cosd sqrtQ) arr.points ε ∧
    arr.points.length - 1 ∈ specKeepSet (perpendicular_distance cosd sqrtQ) arr.points ε ∧
    (arr.douglas_peucker cosd sqrtQ ε).points.head? = arr.points.head? ∧
    (arr.douglas_peucker cosd sqrtQ ε).points.getLast? = arr.points.getLast? := by
  have hε' := le_of_lt hε
  have hset := specKeepSet_eq (perpendicular_distance cosd sqrtQ) arr.points hε'
  have hne : arr.points ≠ [] := by
    intro h
    rw [h] at h3
    exact absurd h3 (by norm_num)
  have h0mem : 0 ∈ specKeepSet (perpendicular_distance cosd sqrtQ) arr.points ε := by
    rw [hset]
    exact Finset.mem_insert_self _ _
  have hlmem : arr.points.length - 1 ∈
      specKeepSet (perpendicular_distance cosd sqrtQ) arr.points ε := by
    rw [hset]
    exact Finset.mem_insert_of_mem (Finset.mem_insert_self _ _)
  have hmain : (arr.douglas_peucker cosd sqrtQ ε).points =
      ((List.range arr.points.length).filter fun i =>
        decide (i ∈ specKeepSet (perpendicular_distance cosd sqrtQ) arr.points ε)).map
        fun i => arr.points.getD i default := by
    rw [douglas_peucker_points_eq arr cosd sqrtQ h3 hε, hset]
  refine ⟨hmain, h0mem, hlmem, ?_, ?_⟩
  · rw [hmain]
    exact filtered_head arr.points _ hne (decide_eq_true h0mem)
  · rw [hmain]
    exact filtered_getLast arr.points _ hne (decide_eq_true hlmem)

/-- Witness for C1: the five-point sequence with tolerance 1. -/
theorem C1_douglas_peucker_range_splitting_witness :
    (arrFive.douglas_peucker id id 1).points.head? = arrFive.points.head? ∧
    (arrFive.douglas_peucker id id 1).points.getLast? = arrFive.points.getLast? :=
  ⟨(C1_douglas_peucker_range_splitting arrFive id id 1 (by decide) (by norm_num)).2.2.2.1,
   (C1_douglas_peucker_range_splitting arrFive id id 1 (by decide) (by norm_num)).2.2.2.2⟩

theorem douglas_peucker_noop (arr : GpsPointArray) (cosd sqrtQ : ℚ → ℚ) (ε : ℚ)
    (h : arr.points.length < 3 ∨ ε ≤ 0) : arr.douglas_peucker cosd sqrtQ ε = arr := by
  simp only [GpsPointArray.douglas_peucker]
  rw [if_pos h]

/-- A larger tolerance never keeps an index that a smaller tolerance (with
the same fuel) drops. -/
theorem dpRecKeep_mono (pd : GpsPoint → GpsPoint → GpsPoint → ℚ) (pts : List GpsPoint)
    {ε₁ ε₂ : ℚ} (h12 : ε₁ ≤ ε₂) :
    ∀ (fuel : ℕ) (s e : ℕ), dpRecKeep pd pts ε₂ fuel s e ⊆ dpRecKeep pd pts ε₁ fuel s e := by
  intro fuel
  induction fuel with
  | zero =>
    intro s e
    exact Finset.Subset.refl _
  | succ f ih =>
    intro s e
    simp only [dpRecKeep]
    by_cases h2 : e - s < 2
    · rw [if_pos h2, if_pos h2]
    · rw [if_neg h2, if_neg h2]
      by_cases hgt2 : ε₂ < (scanMax pd pts s e).1
      · rw [if_pos hgt2, if_pos (lt_of_le_of_lt h12 hgt2)]
        exact Finset.insert_subset_insert _
          (Finset.union_subset_union (ih s _) (ih _ e))
      · rw [if_neg hgt2]
        exact Finset.empty_subset _

theorem length_filter_mono {α : Type _} (l : List α) (p q : α → Bool)
    (h : ∀ a ∈ l, p a = true → q a = true) :
    (l.filter p).length ≤ (l.filter q).length := by
  induction l with
  | nil => exact le_refl _
  | cons a t ih =>
    have iht := ih fun x hx => h x (List.mem_cons_of_mem _ hx)
    by_cases hp : p a = true
    · rw [List.filter_cons_of_pos hp, List.filter_cons_of_pos (h a (List.mem_cons_self _ _) hp),
        List.length_cons, List.length_cons]
      omega
    · rw [List.filter_cons_of_neg hp]
      by_cases hq : q a = true
      · rw [List.filter_cons_of_pos hq, List.length_cons]
        omega
      · rw [List.filter_cons_of_neg hq]
        exact iht

/-- **C2.** For a fixed input and positive tolerances `e1 ≤ e2`, the
Douglas-Peucker output for `e2` has at most as many points as the output
for `e1`: increasing the tolerance never increases the output count. -/
theorem C2_douglas_peucker_monotone (arr : GpsPointArray) (cosd sqrtQ : ℚ → ℚ)
    (e1 e2 : ℚ) (h1 : 0 < e1) (h12 : e1 ≤ e2) :
    (arr.douglas_peucker cosd sqrtQ e2).points.length ≤
      (arr.douglas_peucker cosd sqrtQ e1).points.length := by
  by_cases h3 : 3 ≤ arr.points.length
  · rw [douglas_peucker_points_eq arr cosd sqrtQ h3 h1,
      douglas_peucker_points_eq arr cosd sqrtQ h3 (lt_of_lt_of_le h1 h12),
      List.length_map, List.length_map]
    apply length_filter_mono
    intro i _ hp
    apply decide_eq_true
    have hi := of_decide_eq_true hp
    rcases Finset.mem_insert.mp hi with rfl | hi
    · exact Finset.mem_insert_self _ _
    rcases Finset.mem_insert.mp hi with hi' | hi
    · rw [hi']
      exact Finset.mem_insert_of_mem (Finset.mem_insert_self _ _)
    · exact Finset.mem_insert_of_mem (Finset.mem_insert_of_mem
        (dpRecKeep_mono (perpendicular_distance cosd sqrtQ) arr.points h12 _ _ _ hi))
  · rw [douglas_peucker_noop arr cosd sqrtQ e1 (Or.inl (by omega)),
      douglas_peucker_noop arr cosd sqrtQ e2 (Or.inl (by omega))]

/-- Witness for C2: the five-point sequence with tolerances 1 ≤ 2. -/
theorem C2_douglas_peucker_monotone_witness :
    (arrFive.douglas_peucker id id 2).points.length ≤
      (arrFive.douglas_peucker id id 1).points.length :=
  C2_douglas_peucker_monotone arrFive id id 1 2 (by norm_num) (by norm_num)

theorem map_copy_points (orig : GpsPointArray) :
    ({ points := orig.points.map GpsPoint.copy, name := orig.name,
          array_type := orig.array_type } : GpsPointArray) = orig := by
  rw [map_copy_eq]

/-- The source loop of `simplify_for_routing` computes exactly the
claim-side trial search: the running `best_pts` equals the last accepted
trial's point set, `orig.points` standing in while no trial has been
accepted. -/
theorem sfrLoop_eq_trials (cosd sqrtQ : ℚ → ℚ) (orig : GpsPointArray) (target : ℤ) :
    ∀ (k : ℕ) (lo hi : ℚ) (acc : Option (List GpsPoint)),
      sfrLoop cosd sqrtQ orig target k lo hi (acc.getD orig.points) =
        (sfrTrialSearch cosd sqrtQ orig target k lo hi acc).getD orig.points := by
  intro k
  induction k with
  | zero =>
    intro lo hi acc
    rfl
  | succ n ih =>
    intro lo hi acc
    simp only [sfrLoop, sfrTrialSearch]
    rw [map_copy_points]
    by_cases hex : |(((orig.douglas_peucker cosd sqrtQ ((lo + hi) / 2)).points.length : ℤ) : ℚ) -
        (target : ℚ)| ≤ max 2 ((target : ℚ) * (5 / 100))
    · rw [if_pos hex, if_pos hex]
      rfl
    · rw [if_neg hex, if_neg hex]
      by_cases hcnt : target < ((orig.douglas_peucker cosd sqrtQ ((lo + hi) / 2)).points.length : ℤ)
      · rw [if_pos hcnt, if_pos hcnt]
        exact ih ((lo + hi) / 2) hi acc
      · rw [if_neg hcnt, if_neg hcnt]
        exact ih lo ((lo + hi) / 2)
          (some (orig.douglas_peucker cosd sqrtQ ((lo + hi) / 2)).points)

/-- **C7.** For every sequence with more points than `target_points`,
`simplify_for_routing` runs at most 30 binary-search iterations over
`[1, 50000]` with `mid = (lo + hi) / 2`, trialling `douglas_peucker(mid)`
on a copy of the original points each time (the original is never changed
between trials — the embedding applies each trial to `orig` itself); a
trial whose count exceeds the target raises `lo`, any other lowers `hi` and
is recorded as the current best, a trial within `max(2, 0.05·target)` of
the target is accepted immediately; the final point set is the last
accepted best trial's (the original points if no trial was accepted). -/
theorem C7_simplify_for_routing_search (arr : GpsPointArray) (cosd sqrtQ : ℚ → ℚ)
    (target : ℤ) (h : target < (arr.points.length : ℤ)) :
    arr.simplify_for_routing cosd sqrtQ target =
      { arr with points :=
          (sfrTrialSearch cosd sqrtQ arr target 30 1 50000 none).getD arr.points } := by
  simp only [GpsPointArray.simplify_for_routing]
  rw [if_neg (not_le_of_lt h)]
  congr 1
  have hinit := sfrLoop_eq_trials cosd sqrtQ arr target 30 1 50000 none
  simpa using hinit

/-- Witness for C7: the five-point sequence with target 2. -/
theorem C7_simplify_for_routing_search_witness :
    arrFive.simplify_for_routing id id 2 =
      { points := (sfrTrialSearch id id arrFive 2 30 1 50000 none).getD arrFive.points,
            name := arrFive.name, array_type := arrFive.array_type } :=
  C7_simplify_for_routing_search arrFive id id 2 (by decide)

theorem keptList_pairwise (S : Finset ℕ) (n : ℕ) :
    (keptList S n).Pairwise (· < ·) :=
  List.Pairwise.sublist (List.filter_sublist _) (List.pairwise_lt_range n)

theorem keptList_mem {S : Finset ℕ} {n i : ℕ} :
    i ∈ keptList S n ↔ i < n ∧ i ∈ S := by
  unfold keptList
  rw [List.mem_filter, List.mem_range]
  simp

theorem keptList_strictMono {S : Finset ℕ} {n c c' : ℕ} (hcc : c < c')
    (hc' : c' < (keptList S n).length) :
    (keptList S n).getD c 0 < (keptList S n).getD c' 0 := by
  have hc : c < (keptList S n).length := lt_trans hcc hc'
  rw [List.getD_eq_getElem _ _ hc, List.getD_eq_getElem _ _ hc']
  exact List.pairwise_iff_getElem.mp (keptList_pairwise S n) c c' hc hc' hcc

theorem keptList_lt_reflect {S : Finset ℕ} {n c c' : ℕ}
    (hc : c < (keptList S n).length) (hc' : c' < (keptList S n).length)
    (h : (keptList S n).getD c 0 < (keptList S n).getD c' 0) : c < c' := by
  rcases lt_trichotomy c c' with hlt | rfl | hgt
  · exact hlt
  · exact absurd h (lt_irrefl _)
  · exact absurd (keptList_strictMono hgt hc) (not_lt_of_gt h)

theorem keptList_exists {S : Finset ℕ} {n j : ℕ} (hj : j < n) (hjS : j ∈ S) :
    ∃ c, c < (keptList S n).length ∧ (keptList S n).getD c 0 = j := by
  obtain ⟨c, hc, hcj⟩ := List.mem_iff_getElem.mp (keptList_mem.mpr ⟨hj, hjS⟩)
  exact ⟨c, hc, by rw [List.getD_eq_getElem _ _ hc]; exact hcj⟩

theorem keptList_getD_mem {S : Finset ℕ} {n c : ℕ} (hc : c < (keptList S n).length) :
    (keptList S n).getD c 0 < n ∧ (keptList S n).getD c 0 ∈ S := by
  rw [List.getD_eq_getElem _ _ hc]
  exact keptList_mem.mp (List.getElem_mem hc)

theorem keptList_head {S : Finset ℕ} {n : ℕ} (h0 : 0 ∈ S) (hn : 0 < n) :
    (keptList S n).getD 0 0 = 0 := by
  obtain ⟨c, hc, hcj⟩ := keptList_exists hn h0
  rcases Nat.eq_zero_or_pos c with rfl | hcpos
  · exact hcj
  · have := keptList_strictMono hcpos hc
    rw [hcj] at this
    exact absurd this (Nat.not_lt_zero _)

theorem keptList_last {S : Finset ℕ} {n : ℕ} (hl : n - 1 ∈ S) (hn : 0 < n) :
    (keptList S n).getD ((keptList S n).length - 1) 0 = n - 1 := by
  obtain ⟨c, hc, hcj⟩ := keptList_exists (show n - 1 < n by omega) hl
  rcases Nat.lt_or_ge c ((keptList S n).length - 1) with hclt | hcge
  · have hstep := keptList_strictMono hclt
      (show (keptList S n).length - 1 < (keptList S n).length by omega)
    rw [hcj] at hstep
    have := keptList_getD_mem (show (keptList S n).length - 1 < (keptList S n).length by omega)
    omega
  · have : c = (keptList S n).length - 1 := by omega
    rw [← this]
    exact hcj

theorem keptList_two_le {S : Finset ℕ} {n : ℕ} (h0 : 0 ∈ S) (hl : n - 1 ∈ S)
    (hn : 2 ≤ n) : 2 ≤ (keptList S n).length := by
  obtain ⟨c0, hc0, hc0j⟩ := keptList_exists (show (0 : ℕ) < n by omega) h0
  obtain ⟨c1, hc1, hc1j⟩ := keptList_exists (show n - 1 < n by omega) hl
  have hne : c0 ≠ c1 := by
    intro h
    rw [h, hc1j] at hc0j
    omega
  omega

theorem map_getD_range (l : List GpsPoint) :
    (List.range l.length).map (fun i => l.getD i default) = l := by
  apply List.ext_getElem
  · rw [List.length_map, List.length_range]
  · intro i h1 h2
    rw [List.getElem_map, List.getElem_range, List.getD_eq_getElem _ _ h2]

theorem keptList_map_getD (pts : List GpsPoint) (S : Finset ℕ) {c : ℕ}
    (hc : c < (keptList S pts.length).length) :
    ((keptList S pts.length).map fun i => pts.getD i default).getD c default =
      pts.getD ((keptList S pts.length).getD c 0) default := by
  rw [List.getD_eq_getElem _ _ (by rw [List.length_map]; exact hc), List.getElem_map,
    List.getD_eq_getElem (keptList S pts.length) 0 hc]

theorem chordDist_keptList (pd : GpsPoint → GpsPoint → GpsPoint → ℚ)
    (pts : List GpsPoint) (S : Finset ℕ) {a b j : ℕ}
    (ha : a < (keptList S pts.length).length) (hb : b < (keptList S pts.length).length)
    (hj : j < (keptList S pts.length).length) :
    chordDist pd ((keptList S pts.length).map fun i => pts.getD i default) a b j =
      chordDist pd pts ((keptList S pts.length).getD a 0)
        ((keptList S pts.length).getD b 0) ((keptList S pts.length).getD j 0) := by
  unfold chordDist
  rw [keptList_map_getD pts S ha, keptList_map_getD pts S hb, keptList_map_getD pts S hj]

/-- Re-running the range splitting on the filtered sequence keeps every
interior index: along the recursion tree, each processed second-run range
corresponds to a first-run range whose kept interior indices are exactly
the surviving points strictly inside it, the second-run scan finds the same
maximum at the image of the same argmax, and so every surviving point is
re-kept. -/
theorem dpRKeep_second_run (pd : GpsPoint → GpsPoint → GpsPoint → ℚ)
    (pts : List GpsPoint) {ε : ℚ} (hε : 0 < ε) (S : Finset ℕ) :
    ∀ (N a b : ℕ), b - a ≤ N → a < b → b < (keptList S pts.length).length →
      (∀ j, (j ∈ S ∧ (keptList S pts.length).getD a 0 < j ∧
          j < (keptList S pts.length).getD b 0) ↔
        j ∈ dpRKeep pd pts ε ((keptList S pts.length).getD a 0)
          ((keptList S pts.length).getD b 0)) →
      ∀ c, (c ∈ dpRKeep pd ((keptList S pts.length).map fun i => pts.getD i default)
          ε a b ↔ (a < c ∧ c < b)) := by
  intro N
  induction N with
  | zero =>
    intro a b hN hab hb H c
    exfalso
    omega
  | succ N ih =>
    intro a b hN hab hb H c
    by_cases hab2 : b - a < 2
    · rw [dpRKeep_small _ _ _ hab2]
      simp only [Finset.not_mem_empty, false_iff]
      omega
    · have hεle : (0 : ℚ) ≤ ε := le_of_lt hε
      have ha : a < (keptList S pts.length).length := lt_trans hab hb
      have ha1 : a + 1 < (keptList S pts.length).length := by omega
      have hia1 : (keptList S pts.length).getD a 0 < (keptList S pts.length).getD (a + 1) 0 :=
        keptList_strictMono (by omega) ha1
      have hia1b : (keptList S pts.length).getD (a + 1) 0 < (keptList S pts.length).getD b 0 :=
        keptList_strictMono (by omega) hb
      have hnode : (keptList S pts.length).getD (a + 1) 0 ∈
          dpRKeep pd pts ε ((keptList S pts.length).getD a 0)
            ((keptList S pts.length).getD b 0) :=
        (H _).mp ⟨(keptList_getD_mem ha1).2, hia1, hia1b⟩
      have hne2 : ¬((keptList S pts.length).getD b 0 -
          (keptList S pts.length).getD a 0 < 2) := by
        intro hsmall
        rw [dpRKeep_small pd pts ε hsmall] at hnode
        exact absurd hnode (Finset.not_mem_empty _)
      have hgt : ε < (scanMax pd pts ((keptList S pts.length).getD a 0)
          ((keptList S pts.length).getD b 0)).1 := by
        by_contra hng
        rw [dpRKeep_nosplit pd pts ε hne2 hng] at hnode
        exact absurd hnode (Finset.not_mem_empty _)
      obtain ⟨hsm, hme, hval, hbound, hfirst⟩ := scanMax_pos pd pts hεle hne2 hgt
      have hsplit := dpRKeep_split pd pts hεle hne2 hgt
      have hmnode : (scanMax pd pts ((keptList S pts.length).getD a 0)
          ((keptList S pts.length).getD b 0)).2 ∈
          dpRKeep pd pts ε ((keptList S pts.length).getD a 0)
            ((keptList S pts.length).getD b 0) := by
        rw [hsplit]
        exact Finset.mem_insert_self _ _
      have hmS := (H _).mpr hmnode
      have hmlt : (scanMax pd pts ((keptList S pts.length).getD a 0)
          ((keptList S pts.length).getD b 0)).2 < pts.length :=
        lt_trans hmS.2.2 (keptList_getD_mem hb).1
      obtain ⟨c0, hc0, hc0j⟩ := keptList_exists hmlt hmS.1
      have hac0 : a < c0 := keptList_lt_reflect ha hc0 (by rw [hc0j]; exact hmS.2.1)
      have hc0b : c0 < b := keptList_lt_reflect hc0 hb (by rw [hc0j]; exact hmS.2.2)
      have hc0int : c0 ∈ List.range' (a + 1) (b - (a + 1)) :=
        List.mem_range'_1.mpr (by omega)
      have hvalc0 : chordDist pd ((keptList S pts.length).map fun i => pts.getD i default)
          a b c0 = (scanMax pd pts ((keptList S pts.length).getD a 0)
            ((keptList S pts.length).getD b 0)).1 := by
        rw [chordDist_keptList pd pts S ha hb hc0, hc0j]
        exact hval
      have hscaneq : scanMax pd ((keptList S pts.length).map fun i => pts.getD i default)
          a b = ((scanMax pd pts ((keptList S pts.length).getD a 0)
            ((keptList S pts.length).getD b 0)).1, c0) := by
        rcases scanMax_char pd ((keptList S pts.length).map fun i => pts.getD i default)
            a b with ⟨heq, hbnd⟩ | ⟨hpos', hmem', hval', hbound', hfirst'⟩
        · exfalso
          have hle0 := hbnd c0 hc0int
          rw [hvalc0] at hle0
          exact absurd (lt_trans hε hgt) (not_lt_of_le hle0)
        · have hm''b : (scanMax pd ((keptList S pts.length).map fun i =>
              pts.getD i default) a b).2 < b := by
            have := (List.mem_range'_1.mp hmem').2
            omega
          have hm''a : a < (scanMax pd ((keptList S pts.length).map fun i =>
              pts.getD i default) a b).2 := by
            have := (List.mem_range'_1.mp hmem').1
            omega
          have hm''len : (scanMax pd ((keptList S pts.length).map fun i =>
              pts.getD i default) a b).2 < (keptList S pts.length).length :=
            lt_trans hm''b hb
          have hvalm'' : chordDist pd ((keptList S pts.length).map fun i =>
              pts.getD i default) a b (scanMax pd ((keptList S pts.length).map fun i =>
                pts.getD i default) a b).2 =
              chordDist pd pts ((keptList S pts.length).getD a 0)
                ((keptList S pts.length).getD b 0)
                ((keptList S pts.length).getD (scanMax pd ((keptList S pts.length).map
                  fun i => pts.getD i default) a b).2 0) :=
            chordDist_keptList pd pts S ha hb hm''len
          have hmd_le : (scanMax pd ((keptList S pts.length).map fun i =>
              pts.getD i default) a b).1 ≤
              (scanMax pd pts ((keptList S pts.length).getD a 0)
                ((keptList S pts.length).getD b 0)).1 := by
            rw [← hval', hvalm'']
            exact hbound _ (keptList_strictMono hm''a hm''len)
              (keptList_strictMono hm''b hb)
          have hmd_ge : (scanMax pd pts ((keptList S pts.length).getD a 0)
              ((keptList S pts.length).getD b 0)).1 ≤
              (scanMax pd ((keptList S pts.length).map fun i =>
                pts.getD i default) a b).1 := by
            rw [← hvalc0]
            exact hbound' c0 hc0int
          have hmd : (scanMax pd ((keptList S pts.length).map fun i =>
              pts.getD i default) a b).1 =
              (scanMax pd pts ((keptList S pts.length).getD a 0)
                ((keptList S pts.length).getD b 0)).1 := le_antisymm hmd_le hmd_ge
          have hmm : (scanMax pd ((keptList S pts.length).map fun i =>
              pts.getD i default) a b).2 = c0 := by
            rcases lt_trichotomy (scanMax pd ((keptList S pts.length).map fun i =>
                pts.getD i default) a b).2 c0 with hlt | heq | hgt'
            · exfalso
              have hidx : (keptList S pts.length).getD (scanMax pd
                  ((keptList S pts.length).map fun i => pts.getD i default) a b).2 0 <
                  (scanMax pd pts ((keptList S pts.length).getD a 0)
                    ((keptList S pts.length).getD b 0)).2 := by
                rw [← hc0j]
                exact keptList_strictMono hlt hc0
              have hstrict := hfirst _ (keptList_strictMono hm''a hm''len) hidx
              rw [← hvalm''] at hstrict
              rw [hval'] at hstrict
              rw [hmd] at hstrict
              exact absurd hstrict (lt_irrefl _)
            · exact heq
            · exfalso
              have hstrict := hfirst' c0 hc0int hgt'
              rw [hvalc0, hmd] at hstrict
              exact absurd hstrict (lt_irrefl _)
          rw [Prod.ext_iff]
          exact ⟨hmd, hmm⟩
      have hLsub := dpRKeep_subset pd pts hεle ((keptList S pts.length).getD a 0)
        (scanMax pd pts ((keptList S pts.length).getD a 0)
          ((keptList S pts.length).getD b 0)).2
      have hRsub := dpRKeep_subset pd pts hεle
        (scanMax pd pts ((keptList S pts.length).getD a 0)
          ((keptList S pts.length).getD b 0)).2 ((keptList S pts.length).getD b 0)
      have HL : ∀ j, (j ∈ S ∧ (keptList S pts.length).getD a 0 < j ∧
          j < (scanMax pd pts ((keptList S pts.length).getD a 0)
            ((keptList S pts.length).getD b 0)).2) ↔
          j ∈ dpRKeep pd pts ε ((keptList S pts.length).getD a 0)
            (scanMax pd pts ((keptList S pts.length).getD a 0)
              ((keptList S pts.length).getD b 0)).2 := by
        intro j
        constructor
        · rintro ⟨hjS, hj1, hj2⟩
          have hjn := (H j).mp ⟨hjS, hj1, lt_trans hj2 hme⟩
          rw [hsplit] at hjn
          rcases Finset.mem_insert.mp hjn with rfl | hjn
          · exact absurd hj2 (lt_irrefl _)
          rcases Finset.mem_union.mp hjn with hjn | hjn
          · exact hjn
          · exact absurd (hRsub j hjn).1 (not_lt_of_gt hj2)
        · intro hj
          have hbnds := hLsub j hj
          have hjn : j ∈ dpRKeep pd pts ε ((keptList S pts.length).getD a 0)
              ((keptList S pts.length).getD b 0) := by
            rw [hsplit]
            exact Finset.mem_insert_of_mem (Finset.mem_union_left _ hj)
          exact ⟨((H j).mpr hjn).1, hbnds.1, hbnds.2⟩
      have HR : ∀ j, (j ∈ S ∧ (scanMax pd pts ((keptList S pts.length).getD a 0)
            ((keptList S pts.length).getD b 0)).2 < j ∧
          j < (keptList S pts.length).getD b 0) ↔
          j ∈ dpRKeep pd pts ε (scanMax pd pts ((keptList S pts.length).getD a 0)
            ((keptList S pts.length).getD b 0)).2 ((keptList S pts.length).getD b 0) := by
        intro j
        constructor
        · rintro ⟨hjS, hj1, hj2⟩
          have hjn := (H j).mp ⟨hjS, lt_trans hsm hj1, hj2⟩
          rw [hsplit] at hjn
          rcases Finset.mem_insert.mp hjn with rfl | hjn
          · exact absurd hj1 (lt_irrefl _)
          rcases Finset.mem_union.mp hjn with hjn | hjn
          · exact absurd (hLsub j hjn).2 (not_lt_of_gt hj1)
          · exact hjn
        · intro hj
          have hbnds := hRsub j hj
          have hjn : j ∈ dpRKeep pd pts ε ((keptList S pts.length).getD a 0)
              ((keptList S pts.length).getD b 0) := by
            rw [hsplit]
            exact Finset.mem_insert_of_mem (Finset.mem_union_right _ hj)
          exact ⟨((H j).mpr hjn).1, hbnds.1, hbnds.2⟩
      have ih1 := ih a c0 (by omega) hac0 (lt_trans hc0b hb)
        (fun j => by rw [hc0j]; exact HL j)
      have ih2 := ih c0 b (by omega) hc0b hb
        (fun j => by rw [hc0j]; exact HR j)
      have hgt' : ε < (scanMax pd ((keptList S pts.length).map fun i =>
          pts.getD i default) a b).1 := by
        rw [hscaneq]
        exact hgt
      rw [dpRKeep_split pd ((keptList S pts.length).map fun i => pts.getD i default)
        hεle hab2 hgt', hscaneq]
      simp only [Finset.mem_insert, Finset.mem_union, ih1, ih2]
      omega

theorem GpsPointArray.ext' (x y : GpsPointArray) (hp : x.points = y.points)
    (hn : x.name = y.name) (ht : x.array_type = y.array_type) : x = y := by
  cases x
  cases y
  simp only [GpsPointArray.mk.injEq]
  exact ⟨hp, hn, ht⟩

/-- **C6.** For every sequence and every tolerance, applying
`douglas_peucker` with the same tolerance to its own output returns that
output unchanged: a second run removes no further points. -/
theorem C6_douglas_peucker_idempotent (arr : GpsPointArray) (cosd sqrtQ : ℚ → ℚ)
    (ε : ℚ) :
    (arr.douglas_peucker cosd sqrtQ ε).douglas_peucker cosd sqrtQ ε =
      arr.douglas_peucker cosd sqrtQ ε := by
  by_cases hno : arr.points.length < 3 ∨ ε ≤ 0
  · rw [douglas_peucker_noop arr cosd sqrtQ ε hno]
    exact douglas_peucker_noop arr cosd sqrtQ ε hno
  · push_neg at hno
    obtain ⟨h3', hε'⟩ := hno
    have h3 : 3 ≤ arr.points.length := h3'
    have hε : 0 < ε := hε'
    have hrep' : (arr.douglas_peucker cosd sqrtQ ε).points =
        (keptList (insert 0 (insert (arr.points.length - 1)
            (dpRKeep (perpendicular_distance cosd sqrtQ) arr.points ε 0
              (arr.points.length - 1)))) arr.points.length).map
          fun i => arr.points.getD i default :=
      douglas_peucker_points_eq arr cosd sqrtQ h3 hε
    have h0S : 0 ∈ insert 0 (insert (arr.points.length - 1)
        (dpRKeep (perpendicular_distance cosd sqrtQ) arr.points ε 0
          (arr.points.length - 1))) := Finset.mem_insert_self _ _
    have hlS : arr.points.length - 1 ∈ insert 0 (insert (arr.points.length - 1)
        (dpRKeep (perpendicular_distance cosd sqrtQ) arr.points ε 0
          (arr.points.length - 1))) :=
      Finset.mem_insert_of_mem (Finset.mem_insert_self _ _)
    have hlen_eq : (arr.douglas_peucker cosd sqrtQ ε).points.length =
        (keptList (insert 0 (insert (arr.points.length - 1)
            (dpRKeep (perpendicular_distance cosd sqrtQ) arr.points ε 0
              (arr.points.length - 1)))) arr.points.length).length := by
      rw [hrep', List.length_map]
    by_cases hm3 : (arr.douglas_peucker cosd sqrtQ ε).points.length < 3
    · exact douglas_peucker_noop _ cosd sqrtQ ε (Or.inl hm3)
    · push_neg at hm3
      have hm2 : 2 ≤ (keptList (insert 0 (insert (arr.points.length - 1)
          (dpRKeep (perpendicular_distance cosd sqrtQ) arr.points ε 0
            (arr.points.length - 1)))) arr.points.length).length := by
        rw [← hlen_eq]
        omega
      have hroot : ∀ j, (j ∈ insert 0 (insert (arr.points.length - 1)
            (dpRKeep (perpendicular_distance cosd sqrtQ) arr.points ε 0
              (arr.points.length - 1))) ∧
          (keptList (insert 0 (insert (arr.points.length - 1)
            (dpRKeep (perpendicular_distance cosd sqrtQ) arr.points ε 0
              (arr.points.length - 1)))) arr.points.length).getD 0 0 < j ∧
          j < (keptList (insert 0 (insert (arr.points.length - 1)
            (dpRKeep (perpendicular_distance cosd sqrtQ) arr.points ε 0
              (arr.points.length - 1)))) arr.points.length).getD
            ((keptList (insert 0 (insert (arr.points.length - 1)
              (dpRKeep (perpendicular_distance cosd sqrtQ) arr.points ε 0
                (arr.points.length - 1)))) arr.points.length).length - 1) 0) ↔
          j ∈ dpRKeep (perpendicular_distance cosd sqrtQ) arr.points ε
            ((keptList (insert 0 (insert (arr.points.length - 1)
              (dpRKeep (perpendicular_distance cosd sqrtQ) arr.points ε 0
                (arr.points.length - 1)))) arr.points.length).getD 0 0)
            ((keptList (insert 0 (insert (arr.points.length - 1)
              (dpRKeep (perpendicular_distance cosd sqrtQ) arr.points ε 0
                (arr.points.length - 1)))) arr.points.length).getD
              ((keptList (insert 0 (insert (arr.points.length - 1)
                (dpRKeep (perpendicular_distance cosd sqrtQ) arr.points ε 0
                  (arr.points.length - 1)))) arr.points.length).length - 1) 0) := by
        rw [keptList_head h0S (by omega), keptList_last hlS (by omega)]
        intro j
        constructor
        · rintro ⟨hjS, hj0, hjl⟩
          rcases Finset.mem_insert.mp hjS with rfl | hjS
          · omega
          rcases Finset.mem_insert.mp hjS with rfl | hjS
          · omega
          · exact hjS
        · intro hj
          have hbnds := dpRKeep_subset (perpendicular_distance cosd sqrtQ) arr.points
            (le_of_lt hε) 0 (arr.points.length - 1) j hj
          exact ⟨Finset.mem_insert_of_mem (Finset.mem_insert_of_mem hj),
            hbnds.1, hbnds.2⟩
      have hall := dpRKeep_second_run (perpendicular_distance cosd sqrtQ) arr.points hε
        (insert 0 (insert (arr.points.length - 1)
          (dpRKeep (perpendicular_distance cosd sqrtQ) arr.points ε 0
            (arr.points.length - 1))))
        ((keptList (insert 0 (insert (arr.points.length - 1)
          (dpRKeep (perpendicular_distance cosd sqrtQ) arr.points ε 0
            (arr.points.length - 1)))) arr.points.length).length - 1)
        0
        ((keptList (insert 0 (insert (arr.points.length - 1)
          (dpRKeep (perpendicular_distance cosd sqrtQ) arr.points ε 0
            (arr.points.length - 1)))) arr.points.length).length - 1)
        (le_refl _) (by omega) (by omega) hroot
      apply GpsPointArray.ext'
      · rw [douglas_peucker_points_eq (arr.douglas_peucker cosd sqrtQ ε) cosd sqrtQ hm3 hε]
        have hfull : ∀ i ∈ List.range (arr.douglas_peucker cosd sqrtQ ε).points.length,
            (fun i => decide (i ∈ insert 0
              (insert ((arr.douglas_peucker cosd sqrtQ ε).points.length - 1)
                (dpRKeep (perpendicular_distance cosd sqrtQ)
                  (arr.douglas_peucker cosd sqrtQ ε).points ε 0
                  ((arr.douglas_peucker cosd sqrtQ ε).points.length - 1))))) i = true := by
          intro i hi
          have him : i < (arr.douglas_peucker cosd sqrtQ ε).points.length :=
            List.mem_range.mp hi
          apply decide_eq_true
          by_cases hi0 : i = 0
          · rw [hi0]
            exact Finset.mem_insert_self _ _
          by_cases hil : i = (arr.douglas_peucker cosd sqrtQ ε).points.length - 1
          · rw [hil]
            exact Finset.mem_insert_of_mem (Finset.mem_insert_self _ _)
          · refine Finset.mem_insert_of_mem (Finset.mem_insert_of_mem ?_)
            have hmem : i ∈ dpRKeep (perpendicular_distance cosd sqrtQ)
                ((keptList (insert 0 (insert (arr.points.length - 1)
                  (dpRKeep (perpendicular_distance cosd sqrtQ) arr.points ε 0
                    (arr.points.length - 1)))) arr.points.length).map
                  fun i => arr.points.getD i default) ε 0
                ((keptList (insert 0 (insert (arr.points.length - 1)
                  (dpRKeep (perpendicular_distance cosd sqrtQ) arr.points ε 0
                    (arr.points.length - 1)))) arr.points.length).length - 1) :=
              (hall i).mpr ⟨by omega, by rw [hlen_eq] at him hil; omega⟩
            rw [hrep', List.length_map]
            exact hmem
        rw [List.filter_eq_self.mpr hfull]
        exact map_getD_range (arr.douglas_peucker cosd sqrtQ ε).points
      · exact (douglas_peucker_name_type _ cosd sqrtQ ε).1
      · exact (douglas_peucker_name_type _ cosd sqrtQ ε).2
